import Mathlib

/-!
Verification of the PTVS (Professional Title Verification System) core modules.

This file gives a shallow embedding, in Lean 4, of the pure computational
content of `cross_validator.py` and `cache_manager.py`:

* `_smart_truncate_content` (head/tail truncation with an omission marker),
* `_split_pdf_pages` (page-range partitioning for concurrent extraction),
* `APIRotator` (`get_next_client`, `report_error`, `report_success`),
* `_rotated_api_call` / `_extract_single_page_range` (retry ceiling),
* the task-queue worker pool of `_extract_pdf_pages_concurrent` and the
  assembly phase that sorts, gap-checks and concatenates partial results,
* `SmartCacheManager.get` / `SmartCacheManager.set` and the memory-tier
  eviction `_evict_memory_cache`.

Machine integers are modelled with `Nat`/`Int` (Python integers are unbounded;
Python `len` of a `str` counts code points, matching `String.length` over
`List Char` data).  Stateful methods become explicit state-passing functions;
code that raises returns `Option`/`Except` or an error-marker string exactly
where the Python does.
-/

/-! ### Python helpers -/

/-- Python `range(a, b)`: the list `[a, a+1, ..., b-1]` (empty when `b ≤ a`). -/
def pyRange (a b : Nat) : List Nat := List.range' a (b - a)

/-- Python `range(start, stop, step)` for a positive `step` (the only way the
repository calls it).  For `step = 0` Python raises; here the list is empty. -/
def rangeStep (start stop step : Nat) : List Nat :=
  if 0 < step ∧ start < stop then
    start :: rangeStep (start + step) stop step
  else []
termination_by stop - start
decreasing_by omega

/-- Python slice `s[:n]` on a string (code-point semantics). -/
def pySliceTo (s : String) (n : Nat) : String := String.mk (s.data.take n)

/-- Python slice `s[-n:]` on a string, for `n > 0`: the last `n` code points
(the whole string when `n ≥ len(s)`). -/
def pySliceFromEnd (s : String) (n : Nat) : String :=
  String.mk (s.data.drop (s.length - n))

/-- Python `str.strip()` with no argument: remove leading and trailing
whitespace. -/
def pyStrip (s : String) : String :=
  String.mk (((s.data.dropWhile Char.isWhitespace).reverse.dropWhile
      Char.isWhitespace).reverse)

/-- Decimal digits of a natural number, most significant first, as characters
(the digits of Python `str(n)` / `f-string` rendering of `n`). -/
def decDigits (n : Nat) : List Char :=
  if n < 10 then [Nat.digitChar n]
  else decDigits (n / 10) ++ [Nat.digitChar (n % 10)]
termination_by n
decreasing_by exact Nat.div_lt_self (by omega) (by omega)

/-- Group a reversed digit list in threes, inserting `,` separators: the core
of Python `f-string` formatting with the `,` option. -/
def commaGroupRev (ds : List Char) : List Char :=
  if ds.length ≤ 3 then ds
  else ds.take 3 ++ (',' :: commaGroupRev (ds.drop 3))
termination_by ds.length
decreasing_by simp; omega

/-- Python `f-string` thousands formatting of a natural number. -/
def fmtThousandsNat (n : Nat) : String :=
  String.mk ((commaGroupRev (decDigits n).reverse).reverse)

/-- Python `f-string` thousands formatting of an integer. -/
def fmtThousands (i : Int) : String :=
  if i < 0 then "-" ++ fmtThousandsNat i.natAbs else fmtThousandsNat i.natAbs

/-! ### `_smart_truncate_content` (cross_validator.py lines 310-339) -/

/-- `CrossValidator._smart_truncate_content(content, max_length, head_size,
tail_size)`: if the content is falsy (empty) or no longer than `max_length` it
is returned unchanged; otherwise the first `head_size` and last `tail_size`
characters are kept around an explicit marker stating how many middle
characters were omitted (`omitted_chars = len(content) - head_size -
tail_size`, a Python int that the f-string renders with thousands commas). -/
def smartTruncateContent (content : String) (maxLength headSize tailSize : Nat) :
    String :=
  if content = "" ∨ content.length ≤ maxLength then content
  else
    let omittedChars : Int :=
      (content.length : Int) - (headSize : Int) - (tailSize : Int)
    let headPart := pySliceTo content headSize
    let tailPart := if 0 < tailSize then pySliceFromEnd content tailSize else ""
    headPart ++ ("\n\n[... 中间省略 " ++ fmtThousands omittedChars ++
      " 个字符 ...]\n\n") ++ tailPart

/-! ### `_split_pdf_pages` (cross_validator.py lines 1187-1229)

`_get_pdf_page_count` returns `len(reader.pages)` (a non-negative int) or `0`
on failure, so the page count is modelled as a `Nat` and the Python guard
`total_pages <= 0` is `totalPages = 0`. -/

/-- The chunk list built by the loop `for start_page in range(1, total_pages +
1, pages_per_chunk)` with `end_page = min(start_page + pages_per_chunk - 1,
total_pages)`, started at `s`. -/
def chunksFrom (s N C : Nat) : List (Nat × Nat) :=
  (rangeStep s (N + 1) C).map (fun st => (st, min (st + C - 1) N))

/-- `CrossValidator._split_pdf_pages`: empty on an unreadable (`0`) page
count; a single whole-document range when the page count fits in one chunk;
otherwise the chunk list, re-derived once if the defensive coverage check
`sum(end - start + 1) != total_pages` fails (the regeneration comprehension
is literally the same expression). -/
def splitPdfPages (totalPages pagesPerChunk : Nat) : List (Nat × Nat) :=
  if totalPages = 0 then []
  else if totalPages ≤ pagesPerChunk then [(1, totalPages)]
  else
    let chunks := chunksFrom 1 totalPages pagesPerChunk
    let covered := (chunks.map fun r => r.2 - r.1 + 1).sum
    if covered ≠ totalPages then chunksFrom 1 totalPages pagesPerChunk
    else chunks

/-! ### Helper lemmas about `rangeStep` and `chunksFrom` -/

lemma rangeStep_cons (s stop C : Nat) (hC : 0 < C) (hs : s < stop) :
    rangeStep s stop C = s :: rangeStep (s + C) stop C := by
  rw [rangeStep]
  simp [hC, hs]

lemma rangeStep_nil (s stop C : Nat) (hs : stop ≤ s) :
    rangeStep s stop C = [] := by
  rw [rangeStep]
  have h : ¬(0 < C ∧ s < stop) := by omega
  simp [h]

lemma chunksFrom_cons (s N C : Nat) (hC : 0 < C) (hs : s ≤ N) :
    chunksFrom s N C =
      (s, min (s + C - 1) N) :: chunksFrom (s + C) N C := by
  unfold chunksFrom
  rw [rangeStep_cons _ _ _ hC (by omega)]
  simp

lemma chunksFrom_nil (s N C : Nat) (hs : N < s) :
    chunksFrom s N C = [] := by
  unfold chunksFrom
  rw [rangeStep_nil _ _ _ (by omega)]
  simp

/-- Master invariant of the chunk loop: starting at a valid page `s ≤ N`, the
chunks are contiguous, pairwise in strictly increasing page order, cover
exactly pages `s .. N`, and each chunk is a well-formed sub-range of the
document. -/
lemma chunksFrom_spec (N C : Nat) (hC : 0 < C) :
    ∀ m s, N + 1 - s = m → 0 < s → s ≤ N →
      List.Chain' (fun a b => b.1 = a.2 + 1) (chunksFrom s N C) ∧
      List.Pairwise (fun a b => a.2 < b.1) (chunksFrom s N C) ∧
      (((chunksFrom s N C).map fun r => r.2 - r.1 + 1).sum = N + 1 - s) ∧
      (∀ r ∈ chunksFrom s N C, s ≤ r.1 ∧ r.1 ≤ r.2 ∧ r.2 ≤ N) := by
  intro m
  induction m using Nat.strong_induction_on with
  | _ m ih =>
    intro s hm hs hsN
    rw [chunksFrom_cons _ _ _ hC hsN]
    by_cases hnext : s + C ≤ N
    · obtain ⟨ihChain, ihPw, ihSum, ihMem⟩ :=
        ih (N + 1 - (s + C)) (by omega) (s + C) rfl (by omega) hnext
      have hmin : min (s + C - 1) N = s + C - 1 := by omega
      refine ⟨?_, ?_, ?_, ?_⟩
      · rw [chunksFrom_cons _ _ _ hC hnext] at ihChain ⊢
        exact List.chain'_cons.mpr ⟨by simp [hmin]; omega, ihChain⟩
      · refine List.Pairwise.cons ?_ ihPw
        intro b hb
        have := (ihMem b hb).1
        simp only [hmin]
        omega
      · simp only [List.map_cons, List.sum_cons, ihSum, hmin]
        omega
      · intro r hr
        rcases List.mem_cons.mp hr with h | h
        · subst h; simp [hmin]; omega
        · have := ihMem r h
          omega
    · rw [chunksFrom_nil _ _ _ (by omega)]
      have hmin : min (s + C - 1) N = N := by omega
      refine ⟨by simp, by simp, ?_, ?_⟩
      · simp [hmin]
        omega
      · intro r hr
        simp at hr
        subst hr
        simp [hmin]
        omega

/-- C2: for a positive chunk size `C`, the partitioner returns `[]` on a
degenerate page count, the single whole-document range when `N ≤ C`, and
otherwise a contiguous, non-overlapping list of ranges in ascending start
order whose page counts sum to exactly `N`. -/
theorem splitPdfPages_spec (N C : Nat) (hC : 0 < C) :
    (N = 0 → splitPdfPages N C = []) ∧
    (0 < N → N ≤ C → splitPdfPages N C = [(1, N)]) ∧
    (C < N →
      List.Chain' (fun a b => b.1 = a.2 + 1) (splitPdfPages N C) ∧
      List.Pairwise (fun a b => a.2 < b.1) (splitPdfPages N C) ∧
      List.Pairwise (fun a b => a.1 < b.1) (splitPdfPages N C) ∧
      ((splitPdfPages N C).map fun r => r.2 - r.1 + 1).sum = N) := by
  refine ⟨?_, ?_, ?_⟩
  · intro h
    simp [splitPdfPages, h]
  · intro h1 h2
    unfold splitPdfPages
    rw [if_neg (by omega), if_pos h2]
  · intro hCN
    have hN : 0 < N := by omega
    obtain ⟨hChain, hPw, hSum, hMem⟩ :=
      chunksFrom_spec N C hC (N + 1 - 1) 1 rfl (by omega) (by omega)
    have hEq : splitPdfPages N C = chunksFrom 1 N C := by
      unfold splitPdfPages
      rw [if_neg (by omega), if_neg (by omega)]
      simp only [hSum]
      simp
    rw [hEq]
    refine ⟨hChain, hPw, ?_, by simpa using hSum⟩
    refine List.Pairwise.imp_of_mem ?_ hPw
    intro a b ha hb hab
    have := (hMem a ha).2.1
    omega

/-- Witness for C2 at `N = 12`, `C = 5`: the plan is `[(1,5), (6,10),
(11,12)]`, and each clause of the specification evaluates as stated. -/
theorem splitPdfPages_spec_witness :
    (0 : Nat) < 5 ∧
    (5 < 12 →
      List.Chain' (fun a b => b.1 = a.2 + 1) (splitPdfPages 12 5) ∧
      List.Pairwise (fun a b => a.2 < b.1) (splitPdfPages 12 5) ∧
      List.Pairwise (fun a b => a.1 < b.1) (splitPdfPages 12 5) ∧
      ((splitPdfPages 12 5).map fun r => r.2 - r.1 + 1).sum = 12) :=
  ⟨by decide, (splitPdfPages_spec 12 5 (by decide)).2.2⟩

/-! ### The head/tail truncation helper never exceeds its cap -/

lemma decDigits_length_le : ∀ k n, n < 10 ^ k → (decDigits n).length ≤ max 1 k := by
  intro k
  induction k with
  | zero =>
    intro n hn
    have : n = 0 := by omega
    subst this
    rw [decDigits]
    simp
  | succ k ih =>
    intro n hn
    by_cases h10 : n < 10
    · rw [decDigits, if_pos h10]
      simp
    · rw [decDigits, if_neg h10]
      have hdiv : n / 10 < 10 ^ k := by
        rw [Nat.div_lt_iff_lt_mul (by norm_num : (0 : Nat) < 10)]
        rw [pow_succ] at hn
        omega
      have := ih (n / 10) hdiv
      have hk : 1 ≤ k := by
        by_contra hk0
        have : k = 0 := by omega
        subst this
        simp at hn
        omega
      simp only [List.length_append, List.length_cons, List.length_nil]
      omega

lemma commaGroupRev_length_le_aux :
    ∀ n (ds : List Char), ds.length = n →
      (commaGroupRev ds).length ≤ 2 * ds.length := by
  intro n
  induction n using Nat.strong_induction_on with
  | _ n ih =>
    intro ds hn
    rw [commaGroupRev]
    by_cases h : ds.length ≤ 3
    · simp [h]
      omega
    · rw [if_neg h]
      have hrec := ih (ds.drop 3).length (by simp; omega) (ds.drop 3) rfl
      simp only [List.length_append, List.length_take, List.length_cons,
        List.length_drop] at hrec ⊢
      omega

lemma commaGroupRev_length_le (ds : List Char) :
    (commaGroupRev ds).length ≤ 2 * ds.length :=
  commaGroupRev_length_le_aux ds.length ds rfl

lemma fmtThousandsNat_length_le (n : Nat) (hn : n < 10 ^ 19) :
    (fmtThousandsNat n).length ≤ 38 := by
  have h1 := decDigits_length_le 19 n hn
  have h2 := commaGroupRev_length_le (decDigits n).reverse
  simp only [List.length_reverse] at h2
  have : (fmtThousandsNat n).length =
      (commaGroupRev (decDigits n).reverse).length := by
    simp [fmtThousandsNat, String.length]
  omega

lemma length_mk (l : List Char) : (String.mk l).length = l.length := rfl

/-- On content longer than the configured cap (the repository always calls
with `max_length = 200000`, `head_size = tail_size = 5000`; Python strings are
bounded by `Py_ssize_t`, hence the `2 ^ 63` hypothesis), the helper keeps the
first 5000 and last 5000 characters around an explicit marker counting the
omitted middle characters, and its total length never exceeds the cap. -/
theorem smartTruncateContent_spec (content : String)
    (hlong : 200000 < content.length) (hsz : content.length < 2 ^ 63) :
    smartTruncateContent content 200000 5000 5000 =
      pySliceTo content 5000 ++
        ("\n\n[... 中间省略 " ++
          fmtThousands ((content.length : Int) - 5000 - 5000) ++
          " 个字符 ...]\n\n") ++ pySliceFromEnd content 5000 ∧
    (smartTruncateContent content 200000 5000 5000).length ≤ 200000 := by
  have hne : ¬(content = "" ∨ content.length ≤ 200000) := by
    push_neg
    constructor
    · intro h
      subst h
      simp [String.length] at hlong
    · omega
  have hform : smartTruncateContent content 200000 5000 5000 =
      pySliceTo content 5000 ++
        ("\n\n[... 中间省略 " ++
          fmtThousands ((content.length : Int) - 5000 - 5000) ++
          " 个字符 ...]\n\n") ++ pySliceFromEnd content 5000 := by
    rw [smartTruncateContent, if_neg hne]
    norm_num
  refine ⟨hform, ?_⟩
  rw [hform]
  have hhead : (pySliceTo content 5000).length = 5000 := by
    simp only [pySliceTo, length_mk, List.length_take]
    have : content.length = content.data.length := rfl
    omega
  have htail : (pySliceFromEnd content 5000).length = 5000 := by
    simp only [pySliceFromEnd, length_mk, List.length_drop]
    have : content.length = content.data.length := rfl
    omega
  have homit : ((content.length : Int) - 5000 - 5000) =
      ((content.length - 10000 : Nat) : Int) := by
    omega
  have hfmt : (fmtThousands ((content.length : Int) - 5000 - 5000)).length ≤ 38 := by
    rw [homit, fmtThousands, if_neg (by omega)]
    apply fmtThousandsNat_length_le
    have h63 : (2 : Nat) ^ 63 < 10 ^ 19 := by norm_num
    omega
  simp only [String.length_append]
  have hpre : ("\n\n[... 中间省略 " : String).length = 12 := by decide
  have hpost : (" 个字符 ...]\n\n" : String).length = 11 := by decide
  omega

lemma replicate_content_length :
    (String.mk (List.replicate 200001 'x')).length = 200001 := by
  rw [length_mk, List.length_replicate]

/-! ### `APIRotator` (cross_validator.py lines 32-131)

Credentials are modelled as `Nat` handles.  The per-key dictionaries
`error_count` and the `blacklisted` set become functions; the pure
performance statistics (`usage_count`, `last_use_time`, `response_times`,
`avg_response_time`, `success_count`) never feed back into control flow and
are not modelled. -/

structure RotatorState where
  apiKeys : List Nat
  currentIndex : Nat
  errorCount : Nat → Nat
  blacklisted : Nat → Bool

/-- `APIRotator.report_error`: increment the key's consecutive-error counter
and blacklist the key once the new counter is at least 3. -/
def reportError (k : Nat) (s : RotatorState) : RotatorState :=
  let newCount := s.errorCount k + 1
  { s with
    errorCount := fun q => if q = k then newCount else s.errorCount q,
    blacklisted :=
      if 3 ≤ newCount then
        fun q => if q = k then true else s.blacklisted q
      else s.blacklisted }

/-- `APIRotator.report_success` (the circuit-breaker part): decrement a
positive error counter (`max(0, c - 1)` under the guard `c > 0`), and remove
the key from the blacklist when the updated counter is zero. -/
def reportSuccess (k : Nat) (s : RotatorState) : RotatorState :=
  let newCount :=
    if 0 < s.errorCount k then s.errorCount k - 1 else s.errorCount k
  let bl :=
    if newCount = 0 ∧ s.blacklisted k then
      fun q => if q = k then false else s.blacklisted q
    else s.blacklisted
  { s with
    errorCount := fun q => if q = k then newCount else s.errorCount q,
    blacklisted := bl }

/-- The `while next_index not in available_indices` search of
`get_next_client`, with explicit fuel (the caller passes fuel
`len(api_keys)`, enough to cover the single wrap-around the Python loop can
make before its `next_index == self.current_index` guard fires). -/
def searchNext (fuel : Nat) (availIdx : List Nat) (startIdx len next : Nat) :
    Nat :=
  if next ∈ availIdx then next
  else if (next + 1) % len = startIdx then availIdx.headD 0
  else
    match fuel with
    | 0 => availIdx.headD 0
    | fuel1 + 1 => searchNext fuel1 availIdx startIdx len ((next + 1) % len)

/-- `APIRotator.get_next_client`: raise (`none`) on an empty pool; otherwise
filter out blacklisted keys, resetting the blacklist and all error counters
when nothing is available (`available_keys` then falls back to the whole
pool); then pick the single available key, or round-robin from the current
cursor over the positions of the available keys, advancing the cursor.
Returns the chosen key and the updated state.  The Python merges the cleared
and non-cleared paths through the mutated locals `available_keys`,
`self.blacklisted`, `self.error_count`; here the two paths are written out
branch by branch with the same outcomes. -/
def getNextClient (s : RotatorState) : Option (Nat × RotatorState) :=
  if s.apiKeys = [] then none
  else
    let available := s.apiKeys.filter (fun k => ! s.blacklisted k)
    if available = [] then
      if s.apiKeys.length = 1 then
        some (s.apiKeys.headD 0,
          { s with blacklisted := fun _ => false, errorCount := fun _ => 0 })
      else
        let availIdx := s.apiKeys.map (fun k => s.apiKeys.indexOf k)
        let next := searchNext s.apiKeys.length availIdx s.currentIndex
          s.apiKeys.length s.currentIndex
        some (s.apiKeys.getD next 0,
          { s with blacklisted := fun _ => false, errorCount := fun _ => 0,
                   currentIndex := (next + 1) % s.apiKeys.length })
    else
      if available.length = 1 then
        some (available.headD 0, s)
      else
        let availIdx := available.map (fun k => s.apiKeys.indexOf k)
        let next := searchNext s.apiKeys.length availIdx s.currentIndex
          s.apiKeys.length s.currentIndex
        some (s.apiKeys.getD next 0,
          { s with currentIndex := (next + 1) % s.apiKeys.length })

/-! ### C7: the credential-pool circuit breaker -/

lemma reportSuccess_errorCount (k : Nat) (s : RotatorState) :
    (reportSuccess k s).errorCount k = s.errorCount k - 1 := by
  simp only [reportSuccess]
  by_cases h : 0 < s.errorCount k <;> simp [h] <;> omega

lemma reportSuccess_unblacklists (k : Nat) :
    ∀ n s, s.errorCount k ≤ n →
      ((reportSuccess k)^[n + 1] s).blacklisted k = false := by
  intro n
  induction n with
  | zero =>
    intro s hs
    have h0 : s.errorCount k = 0 := by omega
    rw [Function.iterate_one]
    by_cases hb : s.blacklisted k <;> simp [reportSuccess, h0, hb]
  | succ n ih =>
    intro s hs
    rw [Function.iterate_succ_apply]
    apply ih
    rw [reportSuccess_errorCount]
    omega

/-- C7: for every state and key — including a key whose counter is still
zero — `report_error` increments the consecutive-error counter, and the key
is blacklisted after the call exactly when it already was or the new counter
has reached the threshold 3; `report_success` decrements a positive counter
by one (`max(0, c - 1)`, i.e. truncated subtraction), the key is off the
blacklist after the call exactly when it already was off or the updated
counter reached zero; hence a blacklisted credential re-enters rotation
after `errorCount + 1` consecutive successes. -/
theorem rotator_circuit_breaker (s : RotatorState) (k : Nat) :
    (reportError k s).errorCount k = s.errorCount k + 1 ∧
    ((reportError k s).blacklisted k = true ↔
      s.blacklisted k = true ∨ 3 ≤ s.errorCount k + 1) ∧
    (reportSuccess k s).errorCount k = s.errorCount k - 1 ∧
    ((reportSuccess k s).blacklisted k = false ↔
      s.blacklisted k = false ∨ (reportSuccess k s).errorCount k = 0) ∧
    ((reportSuccess k)^[s.errorCount k + 1] s).blacklisted k = false := by
  refine ⟨?_, ?_, reportSuccess_errorCount k s, ?_,
    reportSuccess_unblacklists k _ s (le_refl _)⟩
  · simp [reportError]
  · by_cases h3 : 3 ≤ s.errorCount k + 1
    · simp [reportError, h3]
    · simp [reportError, h3]
  · by_cases hpos : 0 < s.errorCount k
    · by_cases hb : s.blacklisted k
      · by_cases h0 : s.errorCount k - 1 = 0
        · simp [reportSuccess, hb, h0, hpos]
        · simp [reportSuccess, hb, h0, hpos]
      · simp [reportSuccess, hb, hpos]
    · have h0 : s.errorCount k = 0 := by omega
      by_cases hb : s.blacklisted k <;> simp [reportSuccess, h0, hb]

/-! ### C8: acquisition, blacklist reset, and the rotation cursor -/

lemma headD_mem {l : List Nat} (h : l ≠ []) : l.headD 0 ∈ l := by
  cases l with
  | nil => exact absurd rfl h
  | cons a t => simp

lemma headD_eq_getD_zero {l : List Nat} (h : l ≠ []) :
    l.headD 0 = l.getD 0 0 := by
  cases l with
  | nil => exact absurd rfl h
  | cons a t => rfl

lemma searchNext_found {availIdx : List Nat} {next : Nat} (h : next ∈ availIdx)
    (fuel startIdx len : Nat) :
    searchNext fuel availIdx startIdx len next = next := by
  rw [searchNext.eq_def, if_pos h]

lemma searchNext_mem (availIdx : List Nat) (hne : availIdx ≠ []) :
    ∀ fuel st len next, searchNext fuel availIdx st len next ∈ availIdx := by
  intro fuel
  induction fuel with
  | zero =>
    intro st len next
    rw [searchNext.eq_def]
    by_cases h1 : next ∈ availIdx
    · rw [if_pos h1]; exact h1
    · rw [if_neg h1]
      by_cases h2 : (next + 1) % len = st
      · rw [if_pos h2]; exact headD_mem hne
      · rw [if_neg h2]; exact headD_mem hne
  | succ fuel ih =>
    intro st len next
    rw [searchNext.eq_def]
    by_cases h1 : next ∈ availIdx
    · rw [if_pos h1]; exact h1
    · rw [if_neg h1]
      by_cases h2 : (next + 1) % len = st
      · rw [if_pos h2]; exact headD_mem hne
      · rw [if_neg h2]; exact ih st len ((next + 1) % len)

lemma getD_indexOf {l : List Nat} {k : Nat} (hk : k ∈ l) :
    l.getD (List.indexOf k l) 0 = k := by
  have hlt : List.indexOf k l < l.length := List.indexOf_lt_length.mpr hk
  rw [List.getD_eq_getElem l 0 hlt]
  exact List.getElem_indexOf hlt

/-- C8 (amended): on a non-empty pool of distinct credentials with an
in-range cursor, `get_next_client` returns a key of the pool that is not
blacklisted in the resulting state (and was not blacklisted on entry when
some credential was healthy); when every credential is blacklisted the call
clears the whole blacklist and all error counters, and rotation resumes from
the current rotation cursor — the key at position `currentIndex` — not
necessarily from the start of the list. -/
theorem getNextClient_spec (s : RotatorState) (hne : s.apiKeys ≠ [])
    (hnodup : s.apiKeys.Nodup) (hcur : s.currentIndex < s.apiKeys.length) :
    ∃ k s2, getNextClient s = some (k, s2) ∧ k ∈ s.apiKeys ∧
      s2.blacklisted k = false ∧
      ((∃ q ∈ s.apiKeys, s.blacklisted q = false) →
        s.blacklisted k = false) ∧
      ((∀ q ∈ s.apiKeys, s.blacklisted q = true) →
        (∀ q, s2.blacklisted q = false) ∧ (∀ q, s2.errorCount q = 0) ∧
        k = s.apiKeys.getD s.currentIndex 0) := by
  by_cases hclear : s.apiKeys.filter (fun k => ! s.blacklisted k) = []
  · -- every credential is blacklisted: reset branch
    have hall : ∀ q ∈ s.apiKeys, s.blacklisted q = true := by
      intro q hq
      by_contra hq2
      have hmem : q ∈ s.apiKeys.filter (fun k => ! s.blacklisted k) :=
        List.mem_filter.mpr ⟨hq, by simp [Bool.not_eq_true] at hq2 ⊢; exact hq2⟩
      rw [hclear] at hmem
      exact absurd hmem (List.not_mem_nil q)
    have hnohealthy : ¬ ∃ q ∈ s.apiKeys, s.blacklisted q = false := by
      rintro ⟨q, hq, hqf⟩
      rw [hall q hq] at hqf
      exact Bool.true_eq_false ▸ hqf
    by_cases h1 : s.apiKeys.length = 1
    · have hEq : getNextClient s = some (s.apiKeys.headD 0,
          { s with blacklisted := fun _ => false, errorCount := fun _ => 0 }) := by
        rw [getNextClient, if_neg hne]
        simp only [hclear, eq_self_iff_true, if_true, h1]
      refine ⟨_, _, hEq, headD_mem hne, rfl, fun h => absurd h hnohealthy,
        fun _ => ⟨fun q => rfl, fun q => rfl, ?_⟩⟩
      have hc0 : s.currentIndex = 0 := by omega
      rw [hc0]
      exact headD_eq_getD_zero hne
    · have hmemIdx : s.currentIndex ∈
          s.apiKeys.map (fun k => List.indexOf k s.apiKeys) := by
        refine List.mem_map.mpr ⟨s.apiKeys.getD s.currentIndex 0, ?_, ?_⟩
        · rw [List.getD_eq_getElem s.apiKeys 0 hcur]
          exact List.getElem_mem _
        · rw [List.getD_eq_getElem s.apiKeys 0 hcur]
          exact List.indexOf_getElem hnodup _ _
      have hEq : getNextClient s = some (s.apiKeys.getD s.currentIndex 0,
          { s with blacklisted := fun _ => false, errorCount := fun _ => 0,
                   currentIndex := (s.currentIndex + 1) % s.apiKeys.length }) := by
        rw [getNextClient, if_neg hne]
        simp only [hclear, eq_self_iff_true, if_true, if_neg h1,
          searchNext_found hmemIdx]
      refine ⟨_, _, hEq, ?_, rfl, fun h => absurd h hnohealthy,
        fun _ => ⟨fun q => rfl, fun q => rfl, rfl⟩⟩
      rw [List.getD_eq_getElem s.apiKeys 0 hcur]
      exact List.getElem_mem _
  · -- some credential is healthy: selection stays inside the filter
    have hsub : ∀ k1, k1 ∈ s.apiKeys.filter (fun k => ! s.blacklisted k) →
        k1 ∈ s.apiKeys ∧ s.blacklisted k1 = false := by
      intro k1 hk1
      obtain ⟨hmem, hpred⟩ := List.mem_filter.mp hk1
      exact ⟨hmem, by simpa using hpred⟩
    by_cases h1 : (s.apiKeys.filter (fun k => ! s.blacklisted k)).length = 1
    · have hEq : getNextClient s =
          some ((s.apiKeys.filter (fun k => ! s.blacklisted k)).headD 0, s) := by
        rw [getNextClient, if_neg hne]
        simp only [if_neg hclear, h1, eq_self_iff_true, if_true]
      obtain ⟨hmem, hfalse⟩ := hsub _ (headD_mem hclear)
      refine ⟨_, _, hEq, hmem, hfalse, fun _ => hfalse, fun hall => ?_⟩
      rw [hall _ hmem] at hfalse
      exact absurd hfalse (by simp)
    · have hidxne : (s.apiKeys.filter (fun k => ! s.blacklisted k)).map
          (fun k => List.indexOf k s.apiKeys) ≠ [] := by
        intro h
        exact hclear (List.map_eq_nil.mp h)
      obtain ⟨k0, hk0mem, hk0idx⟩ := List.mem_map.mp
        (searchNext_mem _ hidxne s.apiKeys.length s.currentIndex
          s.apiKeys.length s.currentIndex)
      obtain ⟨hk0keys, hk0false⟩ := hsub _ hk0mem
      have hgd : s.apiKeys.getD (searchNext s.apiKeys.length
          ((s.apiKeys.filter (fun k => ! s.blacklisted k)).map
            (fun k => List.indexOf k s.apiKeys))
          s.currentIndex s.apiKeys.length s.currentIndex) 0 = k0 := by
        rw [← hk0idx]
        exact getD_indexOf hk0keys
      have hEq : getNextClient s = some (k0,
          { s with currentIndex := (searchNext s.apiKeys.length
              ((s.apiKeys.filter (fun k => ! s.blacklisted k)).map
                (fun k => List.indexOf k s.apiKeys))
              s.currentIndex s.apiKeys.length s.currentIndex + 1)
              % s.apiKeys.length }) := by
        rw [getNextClient, if_neg hne]
        simp only [if_neg hclear, if_neg h1, hgd]
      refine ⟨_, _, hEq, hk0keys, hk0false, fun _ => hk0false, fun hall => ?_⟩
      rw [hall _ hk0keys] at hk0false
      exact absurd hk0false (by simp)

/-- Witness for C8 (amended) at a concrete state: pool `[3, 4]`, cursor `1`,
both credentials blacklisted. -/
theorem getNextClient_spec_witness :
    (RotatorState.mk [3, 4] 1 (fun _ => 3) (fun _ => true)).apiKeys ≠ [] ∧
    (RotatorState.mk [3, 4] 1 (fun _ => 3) (fun _ => true)).apiKeys.Nodup ∧
    (∃ k s2, getNextClient
        (RotatorState.mk [3, 4] 1 (fun _ => 3) (fun _ => true)) =
        some (k, s2) ∧
      k ∈ (RotatorState.mk [3, 4] 1 (fun _ => 3) (fun _ => true)).apiKeys ∧
      s2.blacklisted k = false ∧
      ((∃ q ∈ (RotatorState.mk [3, 4] 1 (fun _ => 3)
          (fun _ => true)).apiKeys,
          (RotatorState.mk [3, 4] 1 (fun _ => 3)
            (fun _ => true)).blacklisted q = false) →
        (RotatorState.mk [3, 4] 1 (fun _ => 3)
          (fun _ => true)).blacklisted k = false) ∧
      ((∀ q ∈ (RotatorState.mk [3, 4] 1 (fun _ => 3)
          (fun _ => true)).apiKeys,
          (RotatorState.mk [3, 4] 1 (fun _ => 3)
            (fun _ => true)).blacklisted q = true) →
        (∀ q, s2.blacklisted q = false) ∧ (∀ q, s2.errorCount q = 0) ∧
        k = (RotatorState.mk [3, 4] 1 (fun _ => 3)
          (fun _ => true)).apiKeys.getD
            (RotatorState.mk [3, 4] 1 (fun _ => 3)
              (fun _ => true)).currentIndex 0)) :=
  ⟨by simp, by simp,
    getNextClient_spec (RotatorState.mk [3, 4] 1 (fun _ => 3) (fun _ => true))
      (by simp) (by simp) (by simp)⟩

/-- The concrete pool used to refute the resume-from-start reading of C8:
two credentials `[10, 20]`, rotation cursor at position `1`, both
blacklisted. -/
def cexRotState : RotatorState :=
  RotatorState.mk [10, 20] 1 (fun _ => 3) (fun _ => true)

/-- C8 counterexample: with every credential blacklisted, `get_next_client`
clears the blacklist but picks the key at the current cursor (`20`, at
position 1), not the start of the credential list (`10`), refuting the
reading that rotation resumes from the start. -/
theorem getNextClient_restart_counterexample :
    (∀ q ∈ cexRotState.apiKeys, cexRotState.blacklisted q = true) ∧
    (getNextClient cexRotState).map Prod.fst = some 20 ∧
    cexRotState.apiKeys.headD 0 = 10 ∧ (20 : Nat) ≠ 10 :=
  ⟨by decide, by rw [getNextClient]; decide, by decide, by decide⟩

/-! ### `_rotated_api_call` (cross_validator.py lines 245-308) and
`_extract_single_page_range` (lines 1444-1527)

The outcome of each attempt of the wrapped external call (`call_func`) is a
parameter `outcomes : Nat → CallOutcome α`: attempt `i` either returns a
value or raises an exception whose `str` is the stored message.  Backoff
sleeps and the log lines do not affect the returned value and are not
modelled. -/

inductive CallOutcome (α : Type) where
  | ok (v : α)
  | err (e : String)

/-- The `for attempt in range(max_retries)` loop of `_rotated_api_call`,
carrying the current attempt index and `last_exception`.  Returns the result
together with the number of attempts actually performed; on exhaustion it
raises `last_exception or Exception(f"API调用失败，已重试{max_retries}次")`,
modelled as `Except.error`. -/
def rotatedGo {α : Type} (outcomes : Nat → CallOutcome α)
    (maxRetries attempt : Nat) (last : Option String) :
    Except String α × Nat :=
  if h : attempt < maxRetries then
    match outcomes attempt with
    | CallOutcome.ok v => (Except.ok v, attempt + 1)
    | CallOutcome.err e => rotatedGo outcomes maxRetries (attempt + 1) (some e)
  else
    (Except.error (last.getD
      ("API调用失败，已重试" ++ toString maxRetries ++ "次")), attempt)
termination_by maxRetries - attempt
decreasing_by omega

/-- `CrossValidator._rotated_api_call(call_func, max_retries)`. -/
def rotatedApiCall {α : Type} (outcomes : Nat → CallOutcome α)
    (maxRetries : Nat) : Except String α × Nat :=
  rotatedGo outcomes maxRetries 0 none

/-- The f-string `[第{start_page}-{end_page}页处理失败：{msg}]` used for every
failure result of `_extract_single_page_range`. -/
def pageErrorMarker (startPage endPage : Nat) (msg : String) : String :=
  "[第" ++ toString startPage ++ "-" ++ toString endPage ++ "页处理失败：" ++
    msg ++ "]"

/-- The non-cached path of `_extract_single_page_range`: run the rotated call
with `max_retries=2`; on a response whose stripped text is non-empty return
the stripped text (head/tail-truncated above 200000 characters; the
`cache_manager.set` side effect does not change the returned value); on an
empty response return the empty-content marker; on a raised exception return
the error marker holding the first 100 characters of `str(e)`. -/
def extractPageCore (outcomes : Nat → CallOutcome String)
    (startPage endPage : Nat) : String :=
  match (rotatedApiCall outcomes 2).1 with
  | Except.ok text =>
      if pyStrip text ≠ "" then
        if 200000 < (pyStrip text).length then
          smartTruncateContent (pyStrip text) 200000 5000 5000
        else pyStrip text
      else pageErrorMarker startPage endPage "返回空内容"
  | Except.error e => pageErrorMarker startPage endPage (pySliceTo e 100)

/-- `CrossValidator._extract_single_page_range`: a truthy cached value is
returned as is, otherwise the extraction core runs. -/
def extractSinglePageRange (cached : Option String)
    (outcomes : Nat → CallOutcome String) (startPage endPage : Nat) : String :=
  match cached with
  | some c =>
      if c ≠ "" then c else extractPageCore outcomes startPage endPage
  | none => extractPageCore outcomes startPage endPage

lemma rotatedGo_attempts {α : Type} (outcomes : Nat → CallOutcome α)
    (maxRetries : Nat) :
    ∀ m attempt last, maxRetries - attempt = m → attempt ≤ maxRetries →
      (rotatedGo outcomes maxRetries attempt last).2 ≤ maxRetries := by
  intro m
  induction m using Nat.strong_induction_on with
  | _ m ih =>
    intro attempt last hm hle
    rw [rotatedGo.eq_def]
    by_cases h : attempt < maxRetries
    · rw [dif_pos h]
      cases houtcome : outcomes attempt with
      | ok v =>
          show attempt + 1 ≤ maxRetries
          omega
      | err e =>
          show (rotatedGo outcomes maxRetries (attempt + 1) (some e)).2 ≤
            maxRetries
          exact ih (maxRetries - (attempt + 1)) (by omega) (attempt + 1)
            (some e) rfl (by omega)
    · rw [dif_neg h]
      simpa using hle

/-- C9: the rotated call performs at most `max_retries` attempts, and when
every attempt of the page-range extraction task's call (`max_retries=2`)
raises, the task returns the error-marker string built from the last
exception instead of propagating the exception. -/
theorem retry_ceiling (outcomes : Nat → CallOutcome String)
    (errs : Nat → String) (maxRetries startPage endPage : Nat)
    (hfail : ∀ i, i < 2 → outcomes i = CallOutcome.err (errs i)) :
    (rotatedApiCall outcomes maxRetries).2 ≤ maxRetries ∧
    extractSinglePageRange none outcomes startPage endPage =
      pageErrorMarker startPage endPage (pySliceTo (errs 1) 100) := by
  constructor
  · exact rotatedGo_attempts outcomes maxRetries (maxRetries - 0) 0 none rfl
      (Nat.zero_le _)
  · have h0 : rotatedApiCall outcomes 2 =
        rotatedGo outcomes 2 1 (some (errs 0)) := by
      rw [rotatedApiCall, rotatedGo.eq_def, dif_pos (by omega : (0 : Nat) < 2),
        hfail 0 (by omega)]
    have h1 : rotatedGo outcomes 2 1 (some (errs 0)) =
        rotatedGo outcomes 2 2 (some (errs 1)) := by
      rw [rotatedGo.eq_def, dif_pos (by omega : (1 : Nat) < 2),
        hfail 1 (by omega)]
    have h2 : rotatedGo outcomes 2 2 (some (errs 1)) =
        (Except.error (errs 1), 2) := by
      rw [rotatedGo.eq_def, dif_neg (by omega : ¬ (2 : Nat) < 2)]
      rfl
    have hrot : (rotatedApiCall outcomes 2).1 = Except.error (errs 1) := by
      rw [h0, h1, h2]
    show extractPageCore outcomes startPage endPage =
      pageErrorMarker startPage endPage (pySliceTo (errs 1) 100)
    rw [extractPageCore, hrot]

/-- Witness for C9 with two injected permanent failures and ceiling 2. -/
theorem retry_ceiling_witness :
    (∀ i, i < 2 → (fun j => CallOutcome.err (α := String) (toString j)) i =
      CallOutcome.err ((fun j => toString j) i)) ∧
    ((rotatedApiCall (fun j => CallOutcome.err (α := String) (toString j))
        2).2 ≤ 2 ∧
      extractSinglePageRange none
          (fun j => CallOutcome.err (α := String) (toString j)) 6 10 =
        pageErrorMarker 6 10 (pySliceTo ((fun j => toString j) 1) 100)) :=
  ⟨fun _ _ => rfl,
    retry_ceiling (fun j => CallOutcome.err (toString j))
      (fun j => toString j) 2 6 10 (fun _ _ => rfl)⟩

/-! ### C1: the task-queue worker pool resolves every task exactly once

`_extract_pdf_pages_concurrent` (cross_validator.py lines 1231-1328) puts
`(i, start, end)` for every enumerated page range on a `queue.Queue`; worker
threads claim tasks, skip ids already in `processed_tasks`, and store exactly
one entry `results[task_id] = (start_page, content)` per claimed task, where
`content` is the (possibly head/tail-truncated) extracted text on success
and the inline error marker `[第{s}-{e}页处理失败：{str(e)[:100]}]` when the
task body raises.  Whatever the thread interleaving, queue semantics hand
each queued task to exactly one worker, so the run is modelled as the
sequential consumption of the queue; the per-task outcome (success text or
raised exception) is the parameter `outcome`. -/

inductive TaskOutcome where
  | success (content : String)
  | raised (msg : String)

/-- The value a worker stores for one claimed task: the extracted content
(head/tail-truncated when above 200000 characters, lines 1273-1275) or the
error marker of lines 1285-1291. -/
def taskResultValue (outcome : TaskOutcome) (startPage endPage : Nat) :
    String :=
  match outcome with
  | TaskOutcome.success c =>
      if 200000 < c.length then smartTruncateContent c 200000 5000 5000 else c
  | TaskOutcome.raised m =>
      pageErrorMarker startPage endPage (pySliceTo m 100)

/-- Sequentialised worker-pool run over the task queue, with the
`processed_tasks` duplicate guard and the insertion-ordered `results`
dictionary (keyed by task id). -/
def runQueue (outcome : Nat → TaskOutcome) :
    List (Nat × Nat × Nat) → List Nat → List (Nat × Nat × String) →
    List (Nat × Nat × String)
  | [], _, results => results
  | t :: rest, processed, results =>
      if t.1 ∈ processed then runQueue outcome rest processed results
      else
        runQueue outcome rest (t.1 :: processed)
          (results ++ [(t.1, t.2.1, taskResultValue (outcome t.1) t.2.1 t.2.2)])

/-- The whole concurrent extraction's results map: every enumerated page
range is queued and the queue is consumed from empty `processed`/`results`
state. -/
def extractConcurrentResults (outcome : Nat → TaskOutcome)
    (pageRanges : List (Nat × Nat)) : List (Nat × Nat × String) :=
  runQueue outcome
    (pageRanges.enum.map (fun p => (p.1, p.2.1, p.2.2))) [] []

/-- `_process_files_with_enhanced_concurrency` (lines 1857-1968): each file is
submitted once; collection buckets every future into exactly one of: a
completed result string, the timeout marker (single-task timeout or stage
timeout, both append `文件处理超时`), or the failure marker.  The results
list is modelled in submission order (the Python appends in completion
order, a permutation with the same one-entry-per-file multiset);
`_safe_basename` is the parameter `basename`. -/
inductive FileOutcome where
  | completed (r : String)
  | timedOut
  | failed (msg : String)

def fileMarker (fileType filename suffix : String) : String :=
  "--- " ++ fileType ++ "文件: " ++ filename ++ " ---\n" ++ suffix

def processFilesEnhanced (fileType : String) (basename : String → String)
    (files : List String) (outcome : Nat → FileOutcome) : List String :=
  files.enum.map (fun p =>
    match outcome p.1 with
    | FileOutcome.completed r => r
    | FileOutcome.timedOut => fileMarker fileType (basename p.2) "文件处理超时"
    | FileOutcome.failed m =>
        fileMarker fileType (basename p.2) ("文件并发处理失败: " ++ pySliceTo m 50))

lemma runQueue_fresh (outcome : Nat → TaskOutcome) :
    ∀ (queue : List (Nat × Nat × Nat)) (processed : List Nat)
      (results : List (Nat × Nat × String)),
      (∀ t ∈ queue, t.1 ∉ processed) →
      (queue.map (fun t => t.1)).Nodup →
      runQueue outcome queue processed results =
        results ++ queue.map (fun t =>
          (t.1, t.2.1, taskResultValue (outcome t.1) t.2.1 t.2.2)) := by
  intro queue
  induction queue with
  | nil =>
    intro processed results _ _
    simp [runQueue]
  | cons t rest ih =>
    intro processed results hfresh hnodup
    have hnd := hnodup
    rw [List.map_cons] at hnd
    obtain ⟨hhead, htail⟩ := List.pairwise_cons.mp hnd
    rw [runQueue, if_neg (hfresh t (List.mem_cons_self t rest))]
    rw [ih (t.1 :: processed) _ ?_ ?_]
    · simp
    · intro u hu
      simp only [List.mem_cons]
      push_neg
      refine ⟨?_, hfresh u (List.mem_cons_of_mem t hu)⟩
      exact fun hui => (hhead u.1 (List.mem_map.mpr ⟨u, hu, rfl⟩)) hui.symm
    · exact htail

/-- C1: for every list of page ranges and every assignment of per-task
outcomes (success or raised exception), the worker-pool run produces exactly
one result entry per enumerated task — the results map is the enumeration of
the ranges with the success content or error marker, its key set is exactly
`range (length pageRanges)` (no task dropped, no task resolved twice) —
and the file-level executor produces exactly one result string per submitted
file even under injected timeouts and injected permanent failures. -/
theorem executor_one_result_per_task (outcome : Nat → TaskOutcome)
    (pageRanges : List (Nat × Nat)) (fileOutcome : Nat → FileOutcome)
    (fileType : String) (basename : String → String) (files : List String) :
    extractConcurrentResults outcome pageRanges =
      pageRanges.enum.map (fun p =>
        (p.1, p.2.1, taskResultValue (outcome p.1) p.2.1 p.2.2)) ∧
    (extractConcurrentResults outcome pageRanges).map (fun r => r.1) =
      List.range pageRanges.length ∧
    (processFilesEnhanced fileType basename files fileOutcome).length =
      files.length := by
  have hids : (pageRanges.enum.map (fun p => (p.1, p.2.1, p.2.2))).map
      (fun t => t.1) = List.range pageRanges.length := by
    rw [List.map_map]
    have : ((fun t : Nat × Nat × Nat => t.1) ∘
        (fun p : Nat × (Nat × Nat) => (p.1, p.2.1, p.2.2))) =
        (Prod.fst : Nat × (Nat × Nat) → Nat) := rfl
    rw [this, List.enum_map_fst]
  have hmain : extractConcurrentResults outcome pageRanges =
      pageRanges.enum.map (fun p =>
        (p.1, p.2.1, taskResultValue (outcome p.1) p.2.1 p.2.2)) := by
    rw [extractConcurrentResults,
      runQueue_fresh outcome _ [] [] (by simp) (by rw [hids]; exact List.nodup_range _)]
    simp [List.map_map]
  refine ⟨hmain, ?_, by simp [processFilesEnhanced]⟩
  rw [hmain, List.map_map]
  have : ((fun r : Nat × Nat × String => r.1) ∘
      (fun p : Nat × (Nat × Nat) =>
        (p.1, p.2.1, taskResultValue (outcome p.1) p.2.1 p.2.2))) =
      (Prod.fst : Nat × (Nat × Nat) → Nat) := rfl
  rw [this, List.enum_map_fst]

/-! ### Assembly of partial results (cross_validator.py lines 1330-1390)

After the worker pool, `_extract_pdf_pages_concurrent` sorts the results
dictionary by each entry's start page (`sorted(results.items(), key=lambda
x: x[1][0])`, a stable sort, modelled by `List.insertionSort`, also stable),
walks the sorted entries maintaining `expected_page`, `missing_pages`,
`combined_parts` and `total_length` with the 500000-character combined cap,
then prepends the gap header and joins with the visible separator.
`_clean_page_content` is a deterministic string transform (two `re.sub`
rewrites and a `strip`); it is the parameter `clean` (its only property used
by the theorems is that it never lengthens its input, which holds of the
Python: both substitutions shrink their matches and `strip` only removes). -/

/-- Sort order of `sorted(results.items(), key=lambda x: x[1][0])`:
ascending start page.  Entries are `(task_id, start_page, content)`. -/
def resLE (a b : Nat × Nat × String) : Prop := a.2.1 ≤ b.2.1

/-- Strict version of `resLE`, used to state uniqueness of the sorted
order. -/
def resLT (a b : Nat × Nat × String) : Prop := a.2.1 < b.2.1

instance : DecidableRel resLE := fun a b => Nat.decLe a.2.1 b.2.1

instance : IsTotal (Nat × Nat × String) resLE := ⟨fun a b => Nat.le_total _ _⟩

instance : IsTrans (Nat × Nat × String) resLE :=
  ⟨fun _ _ _ h1 h2 => Nat.le_trans h1 h2⟩

instance : IsAntisymm (Nat × Nat × String) resLT :=
  ⟨fun _ _ h1 h2 => absurd h2 (Nat.lt_asymm h1)⟩

def sortResults (results : List (Nat × Nat × String)) :
    List (Nat × Nat × String) :=
  List.insertionSort resLE results

/-- The inline note appended when one entry is cut to the remaining space:
`f"\n\n[注意：总长度限制，已截取剩余{remaining_space//1000}K字符]"`. -/
def truncNote (remaining : Nat) : String :=
  "\n\n[注意：总长度限制，已截取剩余" ++ toString (remaining / 1000) ++ "K字符]"

/-- Python `repr` of a list of ints, as interpolated by the gap header. -/
def pyListRepr (l : List Nat) : String :=
  "[" ++ String.intercalate ", " (l.map toString) ++ "]"

/-- The assembled document's header: gap report or continuity confirmation. -/
def missingHeader (missing : List Nat) : String :=
  if missing ≠ [] then
    "[分片处理完成 - 缺失页面: " ++ pyListRepr (missing.take 10) ++
      (if 10 < missing.length then "..." else "") ++ "]\n\n"
  else "[分片处理完成 - 页面连续]\n\n"

/-- The merge loop over the sorted results: continuity check against
`expected_page` (gaps extend `missing_pages` with
`range(expected_page, start_page)`), the 500000-character combined-length
check (cut the entry to the remaining space when more than 5000 characters
remain, otherwise stop), cleaning, appending, and advancing `expected_page`
to `task_range[1] + 1` via the first planned range with this start.
Returns `(combined_parts, missing_pages)`.  The Python binds the extended
missing list and the cleaned content to locals before the checks; these pure
locals are inlined here. -/
def assembleWalk (clean : Nat → String → String)
    (pageRanges : List (Nat × Nat)) :
    List (Nat × Nat × String) → Nat → Nat → List String → List Nat →
    List String × List Nat
  | [], _, _, parts, missing => (parts, missing)
  | t :: rest, expected, totalLen, parts, missing =>
      if 500000 < totalLen + t.2.2.length then
        if 5000 < 500000 - totalLen then
          assembleWalk clean pageRanges rest
            (match List.find? (fun q => q.1 == t.2.1) pageRanges with
             | some r => r.2 + 1
             | none => expected)
            (totalLen + (clean t.2.1 (pySliceTo t.2.2 (500000 - totalLen - 1000)
              ++ truncNote (500000 - totalLen))).length)
            (parts ++ [clean t.2.1 (pySliceTo t.2.2 (500000 - totalLen - 1000)
              ++ truncNote (500000 - totalLen))])
            (if expected < t.2.1 then missing ++ pyRange expected t.2.1
             else missing)
        else
          (parts,
            if expected < t.2.1 then missing ++ pyRange expected t.2.1
            else missing)
      else
        assembleWalk clean pageRanges rest
          (match List.find? (fun q => q.1 == t.2.1) pageRanges with
           | some r => r.2 + 1
           | none => expected)
          (totalLen + (clean t.2.1 t.2.2).length)
          (parts ++ [clean t.2.1 t.2.2])
          (if expected < t.2.1 then missing ++ pyRange expected t.2.1
           else missing)

/-- The assembly tail of `_extract_pdf_pages_concurrent`: the all-failed
marker on an empty results map, otherwise sort, walk, prepend the gap
header, join with the page separator, and apply the final 500000-character
cut. -/
def assembleContent (clean : Nat → String → String)
    (pageRanges : List (Nat × Nat)) (filename : String)
    (results : List (Nat × Nat × String)) : String :=
  if results = [] then "[并发处理失败：所有任务都未能完成] - " ++ filename
  else
    let walked := assembleWalk clean pageRanges (sortResults results) 1 0 [] []
    let combined := missingHeader walked.2 ++
      String.intercalate "\n\n--- 页面分割线 ---\n\n" walked.1
    if 500000 < combined.length then
      pySliceTo combined 500000 ++
        ("\n\n[注意：合并后总长度超限，已最终截取到" ++ toString (500000 / 1000) ++
          "K字符]")
    else combined

/-! ### C4: assembly is a function of the result set, ordered by start page -/

lemma sortResults_sorted (l : List (Nat × Nat × String)) :
    List.Sorted resLE (sortResults l) :=
  List.sorted_insertionSort resLE l

lemma sortResults_perm (l : List (Nat × Nat × String)) :
    List.Perm (sortResults l) l :=
  List.perm_insertionSort resLE l

lemma sortResults_strict (l : List (Nat × Nat × String))
    (hnodup : (l.map (fun t => t.2.1)).Nodup) :
    List.Pairwise resLT (sortResults l) := by
  have hnodup2 : ((sortResults l).map (fun t => t.2.1)).Nodup :=
    (List.Perm.nodup_iff ((sortResults_perm l).map (fun t => t.2.1))).mpr hnodup
  have hne : List.Pairwise (fun a b : Nat × Nat × String => a.2.1 ≠ b.2.1)
      (sortResults l) := List.pairwise_map.mp hnodup2
  exact (hne.and (sortResults_sorted l)).imp
    (fun hab => lt_of_le_of_ne hab.2 hab.1)

lemma sortResults_perm_eq (l1 l2 : List (Nat × Nat × String))
    (hperm : List.Perm l1 l2)
    (hnodup : (l1.map (fun t => t.2.1)).Nodup) :
    sortResults l1 = sortResults l2 := by
  have hnodup2 : (l2.map (fun t => t.2.1)).Nodup :=
    (List.Perm.nodup_iff (hperm.map (fun t => t.2.1))).mp hnodup
  refine List.eq_of_perm_of_sorted ?_ (sortResults_strict l1 hnodup)
    (sortResults_strict l2 hnodup2)
  exact ((sortResults_perm l1).trans hperm).trans (sortResults_perm l2).symm

/-- C4: the assembled document is a function of the set of task results —
for any two arrival/storage orders of the same results with distinct start
pages the output is identical — and the order in which the assembler
consumes results is strictly ascending in start page. -/
theorem assembly_deterministic (clean : Nat → String → String)
    (pageRanges : List (Nat × Nat)) (filename : String)
    (l1 l2 : List (Nat × Nat × String)) (hperm : List.Perm l1 l2)
    (hnodup : (l1.map (fun t => t.2.1)).Nodup) :
    assembleContent clean pageRanges filename l1 =
      assembleContent clean pageRanges filename l2 ∧
    List.Pairwise resLT (sortResults l1) := by
  refine ⟨?_, sortResults_strict l1 hnodup⟩
  by_cases h1 : l1 = []
  · have h2 : l2 = [] := by
      subst h1
      exact hperm.symm.eq_nil
    rw [h1, h2]
  · have h2 : l2 ≠ [] := by
      intro h
      exact h1 (List.Perm.eq_nil (h ▸ hperm))
    rw [assembleContent, assembleContent, if_neg h1, if_neg h2,
      sortResults_perm_eq l1 l2 hperm hnodup]

/-- Witness for C4: the same two results arriving in opposite orders
assemble identically. -/
theorem assembly_deterministic_witness :
    List.Perm [(0, 1, "A"), (1, 6, "B")] [(1, 6, "B"), (0, 1, "A")] ∧
    (([(0, 1, "A"), (1, 6, "B")] :
        List (Nat × Nat × String)).map (fun t => t.2.1)).Nodup ∧
    assembleContent (fun _ c => c) [(1, 5), (6, 10)] "f.pdf"
        [(0, 1, "A"), (1, 6, "B")] =
      assembleContent (fun _ c => c) [(1, 5), (6, 10)] "f.pdf"
        [(1, 6, "B"), (0, 1, "A")] :=
  ⟨List.Perm.swap _ _ _, by decide,
    (assembly_deterministic (fun _ c => c) [(1, 5), (6, 10)] "f.pdf"
      [(0, 1, "A"), (1, 6, "B")] [(1, 6, "B"), (0, 1, "A")]
      (List.Perm.swap _ _ _) (by decide)).1⟩

/-! ### C5: gap detection when one interior range is missing -/

lemma map_eraseIdx {α β : Type} (f : α → β) :
    ∀ (l : List α) (i : Nat), (l.eraseIdx i).map f = (l.map f).eraseIdx i := by
  intro l
  induction l with
  | nil => intro i; simp
  | cons a t ih =>
    intro i
    cases i with
    | zero => simp
    | succ n =>
      simp only [List.eraseIdx_cons_succ, List.map_cons]
      rw [ih n]

/-- With pairwise strictly increasing starts, `next((r for r in page_ranges
if r[0] == start_page), None)` at the start of a member range returns exactly
that range. -/
lemma find_start_eq (plan : List (Nat × Nat))
    (hpw : List.Pairwise (fun a b => a.1 < b.1) plan) :
    ∀ r ∈ plan, List.find? (fun q => q.1 == r.1) plan = some r := by
  induction plan with
  | nil => intro r hr; simp at hr
  | cons h t ih =>
    intro r hr
    obtain ⟨hhead, htail⟩ := List.pairwise_cons.mp hpw
    rcases List.mem_cons.mp hr with hrh | hrt
    · subst hrh
      rw [List.find?_cons_of_pos _ (by simp)]
    · have hlt := hhead r hrt
      rw [List.find?_cons_of_neg _ (by simp; omega)]
      exact ih htail r hrt

lemma assembleWalk_step_found (clean : Nat → String → String)
    (pageRanges : List (Nat × Nat)) (t : Nat × Nat × String)
    (rest : List (Nat × Nat × String)) (expected totalLen : Nat)
    (parts : List String) (missing : List Nat) (r : Nat × Nat)
    (hno : ¬ 500000 < totalLen + t.2.2.length)
    (hfind : List.find? (fun q => q.1 == t.2.1) pageRanges = some r) :
    assembleWalk clean pageRanges (t :: rest) expected totalLen parts missing =
      assembleWalk clean pageRanges rest (r.2 + 1)
        (totalLen + (clean t.2.1 t.2.2).length)
        (parts ++ [clean t.2.1 t.2.2])
        (if expected < t.2.1 then missing ++ pyRange expected t.2.1
         else missing) := by
  rw [assembleWalk, if_neg hno, hfind]

lemma assembleWalk_break (clean : Nat → String → String)
    (pageRanges : List (Nat × Nat)) (t : Nat × Nat × String)
    (rest : List (Nat × Nat × String)) (expected totalLen : Nat)
    (parts : List String) (missing : List Nat)
    (hover : 500000 < totalLen + t.2.2.length)
    (hrem : ¬ 5000 < 500000 - totalLen) :
    assembleWalk clean pageRanges (t :: rest) expected totalLen parts missing =
      (parts,
        if expected < t.2.1 then missing ++ pyRange expected t.2.1
        else missing) := by
  rw [assembleWalk, if_pos hover, if_neg hrem]

lemma splitPdfPages_eq_chunks (N C : Nat) (hC : 0 < C) (hCN : C < N) :
    splitPdfPages N C = chunksFrom 1 N C := by
  obtain ⟨-, -, hSum, -⟩ :=
    chunksFrom_spec N C hC (N + 1 - 1) 1 rfl (by omega) (by omega)
  unfold splitPdfPages
  rw [if_neg (by omega), if_neg (by omega)]
  simp only [hSum]
  simp

/-- The merge loop only reads the start page and the content of each result
entry, never its task id. -/
lemma assembleWalk_proj (clean : Nat → String → String)
    (pageRanges : List (Nat × Nat)) :
    ∀ (rs1 rs2 : List (Nat × Nat × String)),
      rs1.map (fun t => (t.2.1, t.2.2)) = rs2.map (fun t => (t.2.1, t.2.2)) →
      ∀ expected totalLen parts missing,
        assembleWalk clean pageRanges rs1 expected totalLen parts missing =
          assembleWalk clean pageRanges rs2 expected totalLen parts missing := by
  intro rs1
  induction rs1 with
  | nil =>
    intro rs2 hp
    cases rs2 with
    | nil => intro _ _ _ _; rfl
    | cons b t2 => simp at hp
  | cons a t1 ih =>
    intro rs2 hp
    cases rs2 with
    | nil => simp at hp
    | cons b t2 =>
      simp only [List.map_cons, List.cons.injEq] at hp
      obtain ⟨hab, ht⟩ := hp
      have hstart : a.2.1 = b.2.1 := congrArg Prod.fst hab
      have hcont : a.2.2 = b.2.2 := congrArg Prod.snd hab
      intro expected totalLen parts missing
      rw [assembleWalk, assembleWalk, hstart, hcont]
      by_cases h1 : 500000 < totalLen + b.2.2.length
      · by_cases h2 : 5000 < 500000 - totalLen
        · rw [if_pos h1, if_pos h2, if_pos h1, if_pos h2]
          exact ih t2 ht _ _ _ _
        · rw [if_pos h1, if_neg h2, if_pos h1, if_neg h2]
      · rw [if_neg h1, if_neg h1]
        exact ih t2 ht _ _ _ _

/-- Walking a complete contiguous chunk segment starting at its own first
page adds nothing to the missing list, provided the combined budget is never
exceeded. -/
lemma assembleWalk_full (clean : Nat → String → String)
    (plan : List (Nat × Nat)) (cnt : Nat × Nat → String)
    (tid : Nat × Nat → Nat) (N C : Nat) (hC : 0 < C)
    (hshrink : ∀ s c, (clean s c).length ≤ c.length) :
    ∀ m s totalLen parts missing, N + 1 - s = m → 0 < s →
      (∀ r ∈ chunksFrom s N C,
        List.find? (fun q => q.1 == r.1) plan = some r) →
      totalLen + ((chunksFrom s N C).map (fun r => (cnt r).length)).sum
        ≤ 500000 →
      ∃ parts2, assembleWalk clean plan
          ((chunksFrom s N C).map (fun r => (tid r, r.1, cnt r)))
          s totalLen parts missing = (parts2, missing) := by
  intro m
  induction m using Nat.strong_induction_on with
  | _ m ih =>
    intro s totalLen parts missing hm hs hfind hbudget
    by_cases hsN : s ≤ N
    · rw [chunksFrom_cons _ _ _ hC hsN] at hfind hbudget ⊢
      simp only [List.map_cons, List.sum_cons] at hbudget
      have hcnt := hshrink s (cnt (s, min (s + C - 1) N))
      have hno : ¬ 500000 <
          totalLen + (cnt (s, min (s + C - 1) N)).length := by omega
      rw [List.map_cons, assembleWalk_step_found clean plan _ _ s totalLen
        parts missing (s, min (s + C - 1) N) hno
        (hfind _ (List.mem_cons_self _ _)), if_neg (Nat.lt_irrefl s)]
      by_cases hnext : s + C ≤ N
      · have hmin : min (s + C - 1) N + 1 = s + C := by omega
        rw [hmin]
        exact ih (N + 1 - (s + C)) (by omega) (s + C)
          (totalLen + (clean s (cnt (s, min (s + C - 1) N))).length)
          (parts ++ [clean s (cnt (s, min (s + C - 1) N))]) missing rfl
          (by omega) (fun r hr => hfind r (List.mem_cons_of_mem _ hr))
          (by omega)
      · rw [chunksFrom_nil _ _ _ (by omega)]
        exact ⟨parts ++ [clean s (cnt (s, min (s + C - 1) N))], rfl⟩
    · rw [chunksFrom_nil _ _ _ (by omega)]
      exact ⟨parts, rfl⟩

/-- Walking a chunk segment from which the `j`-th chunk was removed, `j` not
last, records exactly the removed chunk's pages as missing, provided the
combined budget is never exceeded. -/
lemma assembleWalk_erase (clean : Nat → String → String)
    (plan : List (Nat × Nat)) (cnt : Nat × Nat → String)
    (tid : Nat × Nat → Nat) (N C : Nat) (hC : 0 < C)
    (hshrink : ∀ s c, (clean s c).length ≤ c.length) :
    ∀ m s j totalLen parts missing, N + 1 - s = m → 0 < s →
      j + 1 < (chunksFrom s N C).length →
      (∀ r ∈ chunksFrom s N C,
        List.find? (fun q => q.1 == r.1) plan = some r) →
      totalLen + (((chunksFrom s N C).eraseIdx j).map
        (fun r => (cnt r).length)).sum ≤ 500000 →
      ∃ parts2, assembleWalk clean plan
          (((chunksFrom s N C).eraseIdx j).map (fun r => (tid r, r.1, cnt r)))
          s totalLen parts missing =
        (parts2, missing ++ pyRange ((chunksFrom s N C).getD j (0, 0)).1
          (((chunksFrom s N C).getD j (0, 0)).2 + 1)) := by
  intro m
  induction m using Nat.strong_induction_on with
  | _ m ih =>
    intro s j totalLen parts missing hm hs hj hfind hbudget
    have hsN : s ≤ N := by
      by_contra hcon
      rw [chunksFrom_nil _ _ _ (by omega)] at hj
      simp at hj
    rw [chunksFrom_cons _ _ _ hC hsN] at hj hfind hbudget ⊢
    have hnext : s + C ≤ N := by
      by_contra hcon
      rw [chunksFrom_nil _ _ _ (by omega)] at hj
      simp at hj
    have hmin : min (s + C - 1) N = s + C - 1 := by omega
    cases j with
    | zero =>
      -- the removed chunk is the head (s, s + C - 1); the first processed
      -- entry is the next chunk, which reveals the gap
      rw [List.eraseIdx_cons_zero] at hbudget ⊢
      rw [List.getD_cons_zero, hmin]
      rw [chunksFrom_cons _ _ _ hC hnext] at hfind hbudget ⊢
      simp only [List.map_cons, List.sum_cons] at hbudget
      have hcnt := hshrink (s + C) (cnt (s + C, min (s + C + C - 1) N))
      have hno : ¬ 500000 <
          totalLen + (cnt (s + C, min (s + C + C - 1) N)).length := by omega
      rw [List.map_cons, assembleWalk_step_found clean plan _ _ s totalLen
        parts missing (s + C, min (s + C + C - 1) N) hno
        (hfind _ (List.mem_cons_of_mem _ (List.mem_cons_self _ _))),
        if_pos (by omega : s < s + C)]
      have hpages : pyRange s (s + C) = pyRange s (s + C - 1 + 1) := by
        congr 1
        omega
      by_cases hnext2 : s + C + C ≤ N
      · have hmin2 : min (s + C + C - 1) N + 1 = s + C + C := by omega
        rw [hmin2]
        obtain ⟨parts2, hp2⟩ := assembleWalk_full clean plan cnt tid N C hC
          hshrink (N + 1 - (s + C + C)) (s + C + C)
          (totalLen + (clean (s + C)
            (cnt (s + C, min (s + C + C - 1) N))).length)
          (parts ++ [clean (s + C) (cnt (s + C, min (s + C + C - 1) N))])
          (missing ++ pyRange s (s + C)) rfl (by omega)
          (fun r hr => hfind r (List.mem_cons_of_mem _
            (List.mem_cons_of_mem _ hr)))
          (by omega)
        exact ⟨parts2, by rw [hp2, hpages]⟩
      · rw [chunksFrom_nil _ _ _ (by omega)]
        refine ⟨parts ++ [clean (s + C)
          (cnt (s + C, min (s + C + C - 1) N))], ?_⟩
        rw [show ((List.map (fun r => (tid r, r.1, cnt r)) [] :
          List (Nat × Nat × String))) = [] from rfl]
        rw [assembleWalk, hpages]
    | succ j1 =>
      -- the head chunk is present and is consumed without a gap
      rw [List.eraseIdx_cons_succ] at hbudget ⊢
      rw [List.getD_cons_succ]
      simp only [List.map_cons, List.sum_cons] at hbudget
      have hcnt := hshrink s (cnt (s, min (s + C - 1) N))
      have hno : ¬ 500000 <
          totalLen + (cnt (s, min (s + C - 1) N)).length := by omega
      rw [List.map_cons, assembleWalk_step_found clean plan _ _ s totalLen
        parts missing (s, min (s + C - 1) N) hno
        (hfind _ (List.mem_cons_self _ _)), if_neg (Nat.lt_irrefl s)]
      have hmin1 : min (s + C - 1) N + 1 = s + C := by omega
      rw [hmin1]
      have hlen : j1 + 1 < (chunksFrom (s + C) N C).length := by
        simp at hj
        omega
      exact ih (N + 1 - (s + C)) (by omega) (s + C) j1
        (totalLen + (clean s (cnt (s, min (s + C - 1) N))).length)
        (parts ++ [clean s (cnt (s, min (s + C - 1) N))]) missing rfl
        (by omega) hlen
        (fun r hr => hfind r (List.mem_cons_of_mem _ hr)) (by omega)

/-- C5 (amended): when the task results given to assembly cover every planned
range except the interior range at index `j`, and the supplied contents fit
within the 500000-character assembly budget (so the early-stop branch never
fires; cleaning never lengthens), the reported missing-pages list is exactly
the pages of the omitted range. -/
theorem assembly_gap_detection (N C j : Nat) (hC : 0 < C)
    (clean : Nat → String → String)
    (hshrink : ∀ s c, (clean s c).length ≤ c.length)
    (contents : Nat × Nat → String)
    (hj0 : 0 < j) (hjlast : j + 1 < (splitPdfPages N C).length)
    (hbudget : (((splitPdfPages N C).eraseIdx j).map
      (fun r => (contents r).length)).sum ≤ 500000) :
    (assembleWalk clean (splitPdfPages N C)
        (sortResults (((splitPdfPages N C).enum.eraseIdx j).map
          (fun p => (p.1, p.2.1, contents p.2)))) 1 0 [] []).2 =
      pyRange ((splitPdfPages N C).getD j (0, 0)).1
        (((splitPdfPages N C).getD j (0, 0)).2 + 1) := by
  have hCN : C < N := by
    by_contra hcon
    push_neg at hcon
    by_cases h0 : N = 0
    · rw [show splitPdfPages N C = [] from by simp [splitPdfPages, h0]]
        at hjlast
      simp at hjlast
    · rw [show splitPdfPages N C = [(1, N)] from by
        unfold splitPdfPages; rw [if_neg h0, if_pos hcon]] at hjlast
      simp at hjlast
  have hplanEq : splitPdfPages N C = chunksFrom 1 N C :=
    splitPdfPages_eq_chunks N C hC hCN
  rw [hplanEq] at hjlast hbudget ⊢
  obtain ⟨-, hPw, -, hMem⟩ :=
    chunksFrom_spec N C hC (N + 1 - 1) 1 rfl (by omega) (by omega)
  have hstartPw : List.Pairwise (fun a b => a.1 < b.1) (chunksFrom 1 N C) := by
    refine List.Pairwise.imp_of_mem ?_ hPw
    intro a b ha _ hab
    have := (hMem a ha).2.1
    omega
  have hsnd : ((chunksFrom 1 N C).enum.eraseIdx j).map Prod.snd =
      (chunksFrom 1 N C).eraseIdx j := by
    rw [map_eraseIdx Prod.snd (chunksFrom 1 N C).enum j, List.enum_map_snd]
  have hproj : (((chunksFrom 1 N C).enum.eraseIdx j).map
      (fun p => (p.1, p.2.1, contents p.2))).map (fun t => (t.2.1, t.2.2)) =
      ((chunksFrom 1 N C).eraseIdx j).map (fun r => (r.1, contents r)) := by
    rw [List.map_map]
    have hcomp : ((fun t : Nat × Nat × String => (t.2.1, t.2.2)) ∘
        (fun p : Nat × (Nat × Nat) => (p.1, p.2.1, contents p.2))) =
        ((fun r : Nat × Nat => (r.1, contents r)) ∘ Prod.snd) := rfl
    rw [hcomp, ← List.map_map, hsnd]
  have hstarts : (((chunksFrom 1 N C).enum.eraseIdx j).map
      (fun p => (p.1, p.2.1, contents p.2))).map (fun t => t.2.1) =
      ((chunksFrom 1 N C).eraseIdx j).map (fun r => r.1) := by
    rw [List.map_map]
    have hcomp : ((fun t : Nat × Nat × String => t.2.1) ∘
        (fun p : Nat × (Nat × Nat) => (p.1, p.2.1, contents p.2))) =
        ((fun r : Nat × Nat => r.1) ∘ Prod.snd) := rfl
    rw [hcomp, ← List.map_map, hsnd]
  have herasestarts : List.Pairwise (· < ·)
      (((chunksFrom 1 N C).eraseIdx j).map (fun r => r.1)) := by
    rw [map_eraseIdx]
    exact (List.pairwise_map.mpr hstartPw).sublist
      (List.eraseIdx_sublist _ j)
  have hrespw : List.Pairwise (fun a b : Nat × Nat × String => a.2.1 < b.2.1)
      (((chunksFrom 1 N C).enum.eraseIdx j).map
        (fun p => (p.1, p.2.1, contents p.2))) :=
    List.pairwise_map.mp (hstarts ▸ herasestarts)
  have hsorteq : sortResults (((chunksFrom 1 N C).enum.eraseIdx j).map
      (fun p => (p.1, p.2.1, contents p.2))) =
      ((chunksFrom 1 N C).enum.eraseIdx j).map
        (fun p => (p.1, p.2.1, contents p.2)) := by
    rw [sortResults]
    exact List.Sorted.insertionSort_eq
      (hrespw.imp (fun hab => Nat.le_of_lt hab))
  rw [hsorteq]
  have hproj2 : (((chunksFrom 1 N C).enum.eraseIdx j).map
      (fun p => (p.1, p.2.1, contents p.2))).map (fun t => (t.2.1, t.2.2)) =
      (((chunksFrom 1 N C).eraseIdx j).map
        (fun r => ((0 : Nat), r.1, contents r))).map
          (fun t => (t.2.1, t.2.2)) := by
    rw [hproj, List.map_map]
    rfl
  rw [assembleWalk_proj clean (chunksFrom 1 N C) _ _ hproj2 1 0 [] []]
  obtain ⟨parts2, hp⟩ := assembleWalk_erase clean (chunksFrom 1 N C) contents
    (fun _ => 0) N C hC hshrink (N + 1 - 1) 1 j 0 [] [] rfl (by omega)
    hjlast (find_start_eq (chunksFrom 1 N C) hstartPw) (by simpa using hbudget)
  rw [hp]
  simp

/-- Witness for C5 (amended): `N = 15`, `C = 5`, omitted interior range
`(6, 10)`, all contents `"x"`. -/
theorem assembly_gap_detection_witness :
    (0 : Nat) < 5 ∧
    (∀ s c, ((fun (_ : Nat) (c : String) => c) s c).length ≤ c.length) ∧
    (0 : Nat) < 1 ∧ 1 + 1 < (splitPdfPages 15 5).length ∧
    (((splitPdfPages 15 5).eraseIdx 1).map
      (fun r => ((fun (_ : Nat × Nat) => "x") r).length)).sum ≤ 500000 ∧
    (assembleWalk (fun _ c => c) (splitPdfPages 15 5)
        (sortResults (((splitPdfPages 15 5).enum.eraseIdx 1).map
          (fun p => (p.1, p.2.1, (fun (_ : Nat × Nat) => "x") p.2))))
        1 0 [] []).2 =
      pyRange ((splitPdfPages 15 5).getD 1 (0, 0)).1
        (((splitPdfPages 15 5).getD 1 (0, 0)).2 + 1) := by
  have hplan : splitPdfPages 15 5 = [(1, 5), (6, 10), (11, 15)] := by
    rw [splitPdfPages_eq_chunks 15 5 (by omega) (by omega),
      chunksFrom_cons 1 15 5 (by omega) (by omega),
      chunksFrom_cons 6 15 5 (by omega) (by omega),
      chunksFrom_cons 11 15 5 (by omega) (by omega),
      chunksFrom_nil 16 15 5 (by omega)]
    norm_num
  refine ⟨by omega, fun s c => Nat.le_refl _, by omega, by rw [hplan]; decide,
    by rw [hplan]; decide, ?_⟩
  exact assembly_gap_detection 15 5 1 (by omega) (fun _ c => c)
    (fun s c => Nat.le_refl _) (fun _ => "x") (by omega)
    (by rw [hplan]; decide) (by rw [hplan]; decide)

/-- The plan used to refute the unconditional reading of C5. -/
def cexGapPlan : List (Nat × Nat) := [(1, 5), (6, 10), (11, 15), (16, 20)]

/-- A 496000-character content for the first range, enough to nearly fill
the 500000-character assembly budget. -/
def cexBigContent : String := String.mk (List.replicate 496000 'a')

/-- A 10000-character content for the remaining ranges. -/
def cexSmallContent : String := String.mk (List.replicate 10000 'b')

def cexGapContents (r : Nat × Nat) : String :=
  if r.1 = 1 then cexBigContent else cexSmallContent

/-- The results set: every planned range except the interior range
`(11, 15)` at index 2. -/
def cexGapResults : List (Nat × Nat × String) :=
  (cexGapPlan.enum.eraseIdx 2).map (fun p => (p.1, p.2.1, cexGapContents p.2))

lemma cexGapContents_one : cexGapContents (1, 5) = cexBigContent := by
  simp [cexGapContents]

lemma cexGapContents_six : cexGapContents (6, 10) = cexSmallContent := by
  simp [cexGapContents]

lemma cexBigContent_length : cexBigContent.length = 496000 := by
  rw [cexBigContent, length_mk, List.length_replicate]

lemma cexSmallContent_length : cexSmallContent.length = 10000 := by
  rw [cexSmallContent, length_mk, List.length_replicate]

lemma cexGapResults_explicit : cexGapResults =
    [(0, 1, cexGapContents (1, 5)), (1, 6, cexGapContents (6, 10)),
      (3, 16, cexGapContents (16, 20))] := rfl

lemma cexGapPlan_eq : cexGapPlan = splitPdfPages 20 5 := by
  rw [splitPdfPages_eq_chunks 20 5 (by omega) (by omega),
    chunksFrom_cons 1 20 5 (by omega) (by omega),
    chunksFrom_cons 6 20 5 (by omega) (by omega),
    chunksFrom_cons 11 20 5 (by omega) (by omega),
    chunksFrom_cons 16 20 5 (by omega) (by omega),
    chunksFrom_nil 21 20 5 (by omega)]
  rw [cexGapPlan]
  norm_num

/-- C5 counterexample: the results set covers every planned range of the
20-page, 5-per-chunk plan except the interior range `(11, 15)`, but the
first range's 496000-character content drives `total_length` to within 5000
characters of the 500000 cap, so the merge loop stops at the second entry —
before any entry whose start page could reveal the gap — and the reported
missing-pages list is empty instead of `[11, .., 15]`. -/
theorem assembly_gap_counterexample :
    cexGapPlan = splitPdfPages 20 5 ∧
    ((0 : Nat) < 2 ∧ 2 + 1 < cexGapPlan.length) ∧
    cexGapResults = (cexGapPlan.enum.eraseIdx 2).map
      (fun p => (p.1, p.2.1, cexGapContents p.2)) ∧
    (∀ s c, ((fun (_ : Nat) (c : String) => c) s c).length ≤ c.length) ∧
    (assembleWalk (fun _ c => c) cexGapPlan (sortResults cexGapResults)
      1 0 [] []).2 = [] ∧
    ([] : List Nat) ≠ pyRange (cexGapPlan.getD 2 (0, 0)).1
      ((cexGapPlan.getD 2 (0, 0)).2 + 1) := by
  refine ⟨cexGapPlan_eq, ⟨by omega, by decide⟩, rfl, fun s c => Nat.le_refl _,
    ?_, by decide⟩
  have hsort : sortResults cexGapResults = cexGapResults := by
    rw [sortResults]
    refine List.Sorted.insertionSort_eq ?_
    rw [cexGapResults_explicit]
    refine List.Pairwise.cons ?_ (List.Pairwise.cons ?_ ?_)
    · intro b hb
      rcases List.mem_cons.mp hb with hb1 | hb2
      · subst hb1; show (1 : Nat) ≤ 6; omega
      · simp at hb2; subst hb2; show (1 : Nat) ≤ 16; omega
    · intro b hb
      simp at hb; subst hb; show (6 : Nat) ≤ 16; omega
    · exact List.pairwise_singleton _ _
  rw [hsort, cexGapResults_explicit]
  have hfind1 : List.find? (fun q => q.1 == (1 : Nat)) cexGapPlan =
      some (1, 5) := rfl
  have hbig1 : (((0 : Nat), (1 : Nat), cexGapContents (1, 5)) :
      Nat × Nat × String).2.2.length = 496000 := by
    simp only [cexGapContents_one, cexBigContent_length]
  have hbig2 : ((fun (_ : Nat) (c : String) => c) 1
      (cexGapContents (1, 5))).length = 496000 := by
    simp only [cexGapContents_one, cexBigContent_length]
  have hsm : (((1 : Nat), (6 : Nat), cexGapContents (6, 10)) :
      Nat × Nat × String).2.2.length = 10000 := by
    simp only [cexGapContents_six, cexSmallContent_length]
  have hno1 : ¬ 500000 <
      0 + (((0 : Nat), (1 : Nat), cexGapContents (1, 5)) :
        Nat × Nat × String).2.2.length := by
    rw [hbig1]
    omega
  rw [assembleWalk_step_found (fun _ c => c) cexGapPlan _ _ 1 0 [] []
    (1, 5) hno1 hfind1]
  rw [if_neg (Nat.lt_irrefl 1)]
  have hover : 500000 <
      0 + ((fun (_ : Nat) (c : String) => c) 1 (cexGapContents (1, 5))).length
        + (((1 : Nat), (6 : Nat), cexGapContents (6, 10)) :
          Nat × Nat × String).2.2.length := by
    rw [hbig2, hsm]
    omega
  have hrem : ¬ 5000 < 500000 -
      (0 + ((fun (_ : Nat) (c : String) => c) 1
        (cexGapContents (1, 5))).length) := by
    rw [hbig2]
    omega
  rw [assembleWalk_break (fun _ c => c) cexGapPlan _ _ (5 + 1) _ _ _
    hover hrem]
  rw [if_neg (show ¬ 5 + 1 < (((1 : Nat), (6 : Nat), cexGapContents (6, 10)) :
    Nat × Nat × String).2.1 from Nat.lt_irrefl 6)]

/-! ### C3: the two length caps (helper head/tail cut, assembler prefix cut) -/

/-- The assembled document before the final length check of
`_extract_pdf_pages_concurrent`: the gap header followed by the
separator-joined merged parts. -/
def assembleCombined (clean : Nat → String → String)
    (pageRanges : List (Nat × Nat)) (results : List (Nat × Nat × String)) :
    String :=
  let walked := assembleWalk clean pageRanges (sortResults results) 1 0 [] []
  missingHeader walked.2 ++
    String.intercalate "\n\n--- 页面分割线 ---\n\n" walked.1

/-- The fixed notice the final length check appends after the prefix cut:
`f"\n\n[注意：合并后总长度超限，已最终截取到\x7bmax_combined_length//1000\x7dK字符]"`. -/
def finalCapNote : String :=
  "\n\n[注意：合并后总长度超限，已最终截取到" ++ toString (500000 / 1000) ++ "K字符]"

lemma pySliceTo_length_of_le (s : String) (n : Nat) (h : n ≤ s.length) :
    (pySliceTo s n).length = n := by
  simp only [pySliceTo, length_mk, List.length_take]
  have hd : s.length = s.data.length := rfl
  omega

/-- When the pre-check document is over the 500000-character cap, the final
check keeps its first 500000 characters and appends the fixed notice. -/
lemma assembleContent_over (clean : Nat → String → String)
    (pageRanges : List (Nat × Nat)) (filename : String)
    (results : List (Nat × Nat × String)) (hres : ¬ results = [])
    (hover : 500000 < (assembleCombined clean pageRanges results).length) :
    assembleContent clean pageRanges filename results =
      pySliceTo (assembleCombined clean pageRanges results) 500000 ++
        finalCapNote := by
  rw [assembleContent, if_neg hres]
  show (if 500000 < (assembleCombined clean pageRanges results).length then
      pySliceTo (assembleCombined clean pageRanges results) 500000 ++
        finalCapNote
    else assembleCombined clean pageRanges results) =
    pySliceTo (assembleCombined clean pageRanges results) 500000 ++
      finalCapNote
  rw [if_pos hover]

lemma assembleContent_over_length (clean : Nat → String → String)
    (pageRanges : List (Nat × Nat)) (filename : String)
    (results : List (Nat × Nat × String)) (hres : ¬ results = [])
    (hover : 500000 < (assembleCombined clean pageRanges results).length) :
    (assembleContent clean pageRanges filename results).length =
      500000 + finalCapNote.length := by
  rw [assembleContent_over clean pageRanges filename results hres hover,
    String.length_append,
    pySliceTo_length_of_le _ _ (le_of_lt hover)]

lemma assembleWalk_nil (clean : Nat → String → String)
    (pageRanges : List (Nat × Nat)) (expected totalLen : Nat)
    (parts : List String) (missing : List Nat) :
    assembleWalk clean pageRanges [] expected totalLen parts missing =
      (parts, missing) := by
  rw [assembleWalk]

/-- A single completed task whose content already has 500000 characters. -/
def cexCapContent : String := String.mk (List.replicate 500000 'a')

def cexCapResults : List (Nat × Nat × String) := [(0, 1, cexCapContent)]

lemma cexCapContent_length : cexCapContent.length = 500000 := by
  rw [cexCapContent, length_mk, List.length_replicate]

lemma cexCapContent_proj_length : (((0 : Nat), (1 : Nat), cexCapContent) :
    Nat × Nat × String).2.2.length = 500000 := by
  simp only [cexCapContent_length]

lemma cexCap_walk :
    assembleWalk (fun _ c => c) [(1, 1)] (sortResults cexCapResults)
      1 0 [] [] = ([cexCapContent], []) := by
  have hsort : sortResults cexCapResults = cexCapResults := rfl
  rw [hsort, cexCapResults]
  have hfind : List.find? (fun q => q.1 == (1 : Nat))
      [((1 : Nat), (1 : Nat))] = some (1, 1) := rfl
  have hno : ¬ 500000 < 0 + (((0 : Nat), (1 : Nat), cexCapContent) :
      Nat × Nat × String).2.2.length := by
    rw [cexCapContent_proj_length]
    omega
  rw [assembleWalk_step_found (fun _ c => c) [(1, 1)] _ [] 1 0 [] []
    (1, 1) hno hfind]
  rw [if_neg (Nat.lt_irrefl 1)]
  rw [assembleWalk_nil]
  simp

lemma cexCap_combined_over :
    500000 <
      (assembleCombined (fun _ c => c) [(1, 1)] cexCapResults).length := by
  show 500000 <
    (missingHeader (assembleWalk (fun _ c => c) [(1, 1)]
        (sortResults cexCapResults) 1 0 [] []).2 ++
      String.intercalate "\n\n--- 页面分割线 ---\n\n"
        (assembleWalk (fun _ c => c) [(1, 1)]
          (sortResults cexCapResults) 1 0 [] []).1).length
  rw [cexCap_walk]
  have hhead : missingHeader [] = "[分片处理完成 - 页面连续]\n\n" := by
    rw [missingHeader]
    simp
  have hone : String.intercalate "\n\n--- 页面分割线 ---\n\n" [cexCapContent] =
      cexCapContent := rfl
  rw [hhead, hone, String.length_append, cexCapContent_length]
  have hpos : 0 < ("[分片处理完成 - 页面连续]\n\n" : String).length := by decide
  omega

/-- C3 counterexample: with one completed task of 500000 characters the
pre-check assembled document (header plus content) is over the cap, and the
final check returns its first 500000 characters plus the fixed over-limit
notice — a naive prefix cut whose total length exceeds the 500000-character
cap, against the claimed head/tail truncation with a final length never
above the cap. -/
theorem assembly_cap_counterexample :
    assembleContent (fun _ c => c) [(1, 1)] "f.pdf" cexCapResults =
      pySliceTo (assembleCombined (fun _ c => c) [(1, 1)] cexCapResults)
        500000 ++ finalCapNote ∧
    ¬ (assembleContent (fun _ c => c) [(1, 1)] "f.pdf"
        cexCapResults).length ≤ 500000 := by
  have hres : ¬ cexCapResults = [] := by simp [cexCapResults]
  refine ⟨assembleContent_over _ _ _ _ hres cexCap_combined_over, ?_⟩
  rw [assembleContent_over_length _ _ _ _ hres cexCap_combined_over]
  have hnote : 0 < finalCapNote.length := by decide
  omega

/-- C3 (corrected): the per-source helper `_smart_truncate_content` (always
called with cap 200000, head 5000, tail 5000) does replace over-cap content
by its first and last 5000 characters around an explicit marker counting the
omitted middle characters, and its result never exceeds that cap; the
assembler's final 500000-character check, however, performs a naive prefix
cut — the first 500000 characters plus a fixed over-limit notice — so the
assembled string finally returned exceeds the 500000-character cap by
exactly the notice's length. -/
theorem truncation_cap_spec (content : String)
    (hlong : 200000 < content.length) (hsz : content.length < 2 ^ 63)
    (clean : Nat → String → String) (pageRanges : List (Nat × Nat))
    (filename : String) (results : List (Nat × Nat × String))
    (hres : ¬ results = [])
    (hover : 500000 < (assembleCombined clean pageRanges results).length) :
    (smartTruncateContent content 200000 5000 5000 =
      pySliceTo content 5000 ++
        ("\n\n[... 中间省略 " ++
          fmtThousands ((content.length : Int) - 5000 - 5000) ++
          " 个字符 ...]\n\n") ++ pySliceFromEnd content 5000 ∧
      (smartTruncateContent content 200000 5000 5000).length ≤ 200000) ∧
    assembleContent clean pageRanges filename results =
      pySliceTo (assembleCombined clean pageRanges results) 500000 ++
        finalCapNote ∧
    500000 < (assembleContent clean pageRanges filename results).length := by
  refine ⟨smartTruncateContent_spec content hlong hsz,
    assembleContent_over clean pageRanges filename results hres hover, ?_⟩
  rw [assembleContent_over_length clean pageRanges filename results hres
    hover]
  have hnote : 0 < finalCapNote.length := by decide
  omega

/-- Witness for C3 at concrete inputs: a 200001-character content for the
helper, and the single 500000-character result for the assembler. -/
theorem truncation_cap_spec_witness :
    200000 < (String.mk (List.replicate 200001 'x')).length ∧
    (String.mk (List.replicate 200001 'x')).length < 2 ^ 63 ∧
    ¬ cexCapResults = [] ∧
    500000 <
      (assembleCombined (fun _ c => c) [(1, 1)] cexCapResults).length ∧
    500000 < (assembleContent (fun _ c => c) [(1, 1)] "f.pdf"
      cexCapResults).length :=
  ⟨by rw [replicate_content_length]; norm_num,
   by rw [replicate_content_length]; norm_num,
   by simp [cexCapResults],
   cexCap_combined_over,
   (truncation_cap_spec (String.mk (List.replicate 200001 'x'))
      (by rw [replicate_content_length]; norm_num)
      (by rw [replicate_content_length]; norm_num)
      (fun _ c => c) [(1, 1)] "f.pdf" cexCapResults
      (by simp [cexCapResults]) cexCap_combined_over).2.2⟩

/-! ### SmartCacheManager (cache_manager.py)

The file system is a function `fs : String → Option FileStat` (`os.stat`:
`none` means the call raises).  `_get_file_hash` is deterministic in the
path, the stat and the file bytes; with file bytes abstracted into the stat
it is the parameter `fhash` (the claims never need more than determinism).
Redis is disabled in the default configuration and not modelled.  Python
dicts keep insertion order, update values in place and delete by key;
`memory_cache` and the cache directory are association lists with exactly
those operations.  Times are integers; the statistics counters do not feed
back into cache decisions and are not modelled. -/

structure FileStat where
  size : Int
  mtime : Int
deriving DecidableEq

structure CacheEntry where
  content : String
  file_hash : String
  file_size : Int
  file_mtime : Int
  cache_time : Int
  access_count : Nat
  last_access : Int
deriving DecidableEq

/-- Python-dict lookup. -/
def lookupA {V : Type} (k : String) : List (String × V) → Option V
  | [] => none
  | (k2, v) :: t => if k2 = k then some v else lookupA k t

/-- Python-dict assignment: update in place, or append a new key at the
end. -/
def insertA {V : Type} (k : String) (v : V) :
    List (String × V) → List (String × V)
  | [] => [(k, v)]
  | (k2, v2) :: t =>
      if k2 = k then (k2, v) :: t else (k2, v2) :: insertA k v t

/-- Python-dict `del` (the key occurs at most once in a dict). -/
def eraseA {V : Type} (k : String) :
    List (String × V) → List (String × V)
  | [] => []
  | (k2, v2) :: t => if k2 = k then t else (k2, v2) :: eraseA k t

structure CacheState where
  memory : List (String × CacheEntry)
  disk : List (String × CacheEntry)

/-- `_get_cache_key`. -/
def mkCacheKey (pfx h : String) : String :=
  if pfx ≠ "" then pfx ++ "_" ++ h else h

/-- `CacheEntry.is_expired`. -/
def isExpiredB (e : CacheEntry) (maxAgeHours : Nat) (now : Int) : Bool :=
  decide ((maxAgeHours : Int) * 3600 < now - e.cache_time)

/-- `CacheEntry.is_file_changed` (a failing `os.stat` counts as changed). -/
def isFileChangedB (fs : String → Option FileStat) (path : String)
    (e : CacheEntry) : Bool :=
  match fs path with
  | none => true
  | some st =>
      decide (st.size ≠ e.file_size) || decide (st.mtime ≠ e.file_mtime)

/-- Sort order of `_evict_memory_cache`: ascending last access time,
stable. -/
def entryLE (a b : String × CacheEntry) : Prop :=
  a.2.last_access ≤ b.2.last_access

instance : DecidableRel entryLE := fun a b => Int.decLe _ _

/-- `SmartCacheManager._evict_memory_cache`: on a non-empty memory tier,
delete the `max(1, n // 4)` least recently accessed entries. -/
def evictMemory (mem : List (String × CacheEntry)) :
    List (String × CacheEntry) :=
  if mem = [] then mem
  else
    ((List.insertionSort entryLE mem).take
      (max 1 (mem.length / 4))).foldl (fun m kv => eraseA kv.1 m) mem

/-- Steps 2-3 of `SmartCacheManager.get` (Redis disabled): look the key up
in the file cache; on a fresh, unchanged entry promote it into memory when
the memory tier is strictly below its cap, bump its access statistics (the
promoted object is the same object, so the bump is visible in memory), and
return the content; on a stale entry delete the cache file and miss. -/
def cacheGetDisk (fs : String → Option FileStat)
    (maxAgeHours maxMemoryItems : Nat) (now : Int) (path key : String)
    (s : CacheState) : Option String × CacheState :=
  match lookupA key s.disk with
  | some e =>
      if !(isExpiredB e maxAgeHours now) && !(isFileChangedB fs path e) then
        let e2 := { e with access_count := e.access_count + 1,
                           last_access := now }
        (some e.content,
          { s with memory :=
              if s.memory.length < maxMemoryItems then insertA key e2 s.memory
              else s.memory })
      else (none, { s with disk := eraseA key s.disk })
  | none => (none, s)

/-- `SmartCacheManager.get`: compute the key from the current file hash,
check the memory tier (dropping an expired or changed entry and falling
through), then the file tier. -/
def cacheGet (fhash : String → Option FileStat → String)
    (fs : String → Option FileStat) (maxAgeHours maxMemoryItems : Nat)
    (now : Int) (path pfx : String) (s : CacheState) :
    Option String × CacheState :=
  let key := mkCacheKey pfx (fhash path (fs path))
  match lookupA key s.memory with
  | some e =>
      if isExpiredB e maxAgeHours now || isFileChangedB fs path e then
        cacheGetDisk fs maxAgeHours maxMemoryItems now path key
          { s with memory := eraseA key s.memory }
      else
        let e2 := { e with access_count := e.access_count + 1,
                           last_access := now }
        (some e.content, { s with memory := insertA key e2 s.memory })
  | none => cacheGetDisk fs maxAgeHours maxMemoryItems now path key s

/-- `SmartCacheManager.set`: a failing `os.stat` aborts with `False`;
otherwise build the fresh entry, evict from a full memory tier, store the
entry in both tiers under the key of the current hash, and report
success. -/
def cacheSet (fhash : String → Option FileStat → String)
    (fs : String → Option FileStat) (maxMemoryItems : Nat) (now : Int)
    (path content pfx : String) (s : CacheState) : Bool × CacheState :=
  match fs path with
  | none => (false, s)
  | some st =>
      let h := fhash path (some st)
      let key := mkCacheKey pfx h
      let e : CacheEntry := ⟨content, h, st.size, st.mtime, now, 1, now⟩
      let mem1 := if maxMemoryItems ≤ s.memory.length then evictMemory s.memory
        else s.memory
      (true, ⟨insertA key e mem1, insertA key e s.disk⟩)

/-! ### Association-list facts for the cache tiers -/

lemma lookupA_insertA_self {V : Type} :
    ∀ (m : List (String × V)) (k : String) (v : V),
      lookupA k (insertA k v m) = some v := by
  intro m
  induction m with
  | nil => intro k v; simp [insertA, lookupA]
  | cons h t ih =>
    intro k v
    obtain ⟨k2, v2⟩ := h
    by_cases hk : k2 = k
    · simp [insertA, hk, lookupA]
    · simp [insertA, hk, lookupA, ih]

lemma length_insertA_le {V : Type} :
    ∀ (m : List (String × V)) (k : String) (v : V),
      (insertA k v m).length ≤ m.length + 1 := by
  intro m
  induction m with
  | nil => intro k v; simp [insertA]
  | cons h t ih =>
    intro k v
    obtain ⟨k2, v2⟩ := h
    by_cases hk : k2 = k
    · simp [insertA, hk]
    · simp only [insertA, if_neg hk, List.length_cons]
      have := ih k v
      omega

lemma length_insertA_of_lookup {V : Type} :
    ∀ (m : List (String × V)) (k : String) (v v0 : V),
      lookupA k m = some v0 → (insertA k v m).length = m.length := by
  intro m
  induction m with
  | nil => intro k v v0 h; simp [lookupA] at h
  | cons h t ih =>
    intro k v v0 hl
    obtain ⟨k2, v2⟩ := h
    by_cases hk : k2 = k
    · simp [insertA, hk]
    · simp only [lookupA, if_neg hk] at hl
      simp only [insertA, if_neg hk, List.length_cons]
      rw [ih k v v0 hl]

lemma mem_keys_insertA {V : Type} :
    ∀ (m : List (String × V)) (k a : String) (v : V),
      a ∈ (insertA k v m).map Prod.fst → a ∈ m.map Prod.fst ∨ a = k := by
  intro m
  induction m with
  | nil => intro k a v h; simp [insertA] at h; simp [h]
  | cons h t ih =>
    intro k a v ha
    obtain ⟨k2, v2⟩ := h
    by_cases hk : k2 = k
    · simp only [insertA, if_pos hk, List.map_cons, List.mem_cons] at ha ⊢
      tauto
    · simp only [insertA, if_neg hk, List.map_cons, List.mem_cons] at ha ⊢
      rcases ha with ha | ha
      · tauto
      · rcases ih k a v ha with h2 | h2 <;> tauto

lemma nodup_keys_insertA {V : Type} :
    ∀ (m : List (String × V)) (k : String) (v : V),
      (m.map Prod.fst).Nodup → ((insertA k v m).map Prod.fst).Nodup := by
  intro m
  induction m with
  | nil => intro k v _; simp [insertA]
  | cons h t ih =>
    intro k v hn
    obtain ⟨k2, v2⟩ := h
    simp only [List.map_cons, List.nodup_cons] at hn
    by_cases hk : k2 = k
    · simp only [insertA, if_pos hk, List.map_cons, List.nodup_cons]
      exact hn
    · simp only [insertA, if_neg hk, List.map_cons, List.nodup_cons]
      refine ⟨?_, ih k v hn.2⟩
      intro hmem
      rcases mem_keys_insertA t k k2 v hmem with h2 | h2
      · exact hn.1 h2
      · exact hk h2

lemma lookupA_eq_none_iff {V : Type} :
    ∀ (m : List (String × V)) (k : String),
      lookupA k m = none ↔ k ∉ m.map Prod.fst := by
  intro m
  induction m with
  | nil => intro k; simp [lookupA]
  | cons h t ih =>
    intro k
    obtain ⟨k2, v2⟩ := h
    by_cases hk : k2 = k
    · simp [lookupA, hk]
    · simp [lookupA, hk, ih, Ne.symm hk]

lemma keys_eraseA_sublist {V : Type} :
    ∀ (m : List (String × V)) (k : String),
      List.Sublist ((eraseA k m).map Prod.fst) (m.map Prod.fst) := by
  intro m
  induction m with
  | nil => intro k; simp [eraseA]
  | cons h t ih =>
    intro k
    obtain ⟨k2, v2⟩ := h
    by_cases hk : k2 = k
    · simp only [eraseA, if_pos hk, List.map_cons]
      exact List.sublist_cons_self _ _
    · simp only [eraseA, if_neg hk, List.map_cons]
      exact List.Sublist.cons₂ _ (ih k)

lemma length_eraseA_of_mem {V : Type} :
    ∀ (m : List (String × V)) (k : String), k ∈ m.map Prod.fst →
      (eraseA k m).length + 1 = m.length := by
  intro m
  induction m with
  | nil => intro k h; simp at h
  | cons h t ih =>
    intro k hk2
    obtain ⟨k2, v2⟩ := h
    by_cases hk : k2 = k
    · simp [eraseA, hk]
    · simp only [List.map_cons, List.mem_cons] at hk2
      rcases hk2 with h2 | h2
      · exact absurd h2.symm hk
      · simp only [eraseA, if_neg hk, List.length_cons]
        rw [← ih k h2]

lemma lookupA_eraseA_ne {V : Type} :
    ∀ (m : List (String × V)) (k k2 : String), k2 ≠ k →
      lookupA k2 (eraseA k m) = lookupA k2 m := by
  intro m
  induction m with
  | nil => intro k k2 _; simp [eraseA]
  | cons h t ih =>
    intro k k2 hne
    obtain ⟨k3, v3⟩ := h
    simp only [eraseA]
    by_cases hk : k3 = k
    · rw [if_pos hk]
      simp only [lookupA]
      rw [if_neg (by rw [hk]; exact fun h2 => hne h2.symm)]
    · rw [if_neg hk]
      simp only [lookupA]
      by_cases hk4 : k3 = k2
      · rw [if_pos hk4, if_pos hk4]
      · rw [if_neg hk4, if_neg hk4]
        exact ih k k2 hne

lemma foldl_eraseA_length {V : Type} :
    ∀ (ks : List String) (m : List (String × V)),
      ks.Nodup → (∀ k ∈ ks, k ∈ m.map Prod.fst) →
      (ks.foldl (fun acc k => eraseA k acc) m).length + ks.length =
        m.length := by
  intro ks
  induction ks with
  | nil => intro m _ _; simp
  | cons k rest ih =>
    intro m hnod hmem
    simp only [List.nodup_cons] at hnod
    have hrest : ∀ k2 ∈ rest, k2 ∈ (eraseA k m).map Prod.fst := by
      intro k2 hk2
      have hne : k2 ≠ k := fun h => hnod.1 (h ▸ hk2)
      have h2 : lookupA k2 m ≠ none := by
        intro hcon
        exact ((lookupA_eq_none_iff m k2).mp hcon)
          (hmem k2 (List.mem_cons_of_mem _ hk2))
      have h3 : lookupA k2 (eraseA k m) ≠ none := by
        rw [lookupA_eraseA_ne m k k2 hne]
        exact h2
      by_contra hcon
      exact h3 ((lookupA_eq_none_iff (eraseA k m) k2).mpr hcon)
    have := ih (eraseA k m) hnod.2 hrest
    have hlen := length_eraseA_of_mem m k (hmem k (List.mem_cons_self _ _))
    simp only [List.foldl_cons, List.length_cons]
    omega

lemma foldl_eraseA_keys_sublist {V : Type} :
    ∀ (ks : List String) (m : List (String × V)),
      List.Sublist ((ks.foldl (fun acc k => eraseA k acc) m).map Prod.fst)
        (m.map Prod.fst) := by
  intro ks
  induction ks with
  | nil => intro m; simp
  | cons k rest ih =>
    intro m
    simp only [List.foldl_cons]
    exact (ih (eraseA k m)).trans (keys_eraseA_sublist m k)

lemma evictMemory_length (mem : List (String × CacheEntry))
    (hne : mem ≠ []) (hnodup : (mem.map Prod.fst).Nodup) :
    (evictMemory mem).length + max 1 (mem.length / 4) = mem.length := by
  rw [evictMemory, if_neg hne]
  have hperm : List.Perm (List.insertionSort entryLE mem) mem :=
    List.perm_insertionSort _ _
  have hsortlen : (List.insertionSort entryLE mem).length = mem.length :=
    hperm.length_eq
  have hlen1 : 1 ≤ mem.length := by
    cases mem with
    | nil => exact absurd rfl hne
    | cons a t => simp
  have hc : max 1 (mem.length / 4) ≤ mem.length := by
    have : mem.length / 4 ≤ mem.length := Nat.div_le_self _ _
    omega
  have hfold : ((List.insertionSort entryLE mem).take
      (max 1 (mem.length / 4))).foldl (fun m kv => eraseA kv.1 m) mem =
      (((List.insertionSort entryLE mem).take
        (max 1 (mem.length / 4))).map Prod.fst).foldl
          (fun acc k => eraseA k acc) mem := by
    rw [List.foldl_map]
  rw [hfold]
  have hsortnodup : ((List.insertionSort entryLE mem).map Prod.fst).Nodup :=
    (hperm.map Prod.fst).nodup_iff.mpr hnodup
  have htakekeys : List.Sublist (((List.insertionSort entryLE mem).take
      (max 1 (mem.length / 4))).map Prod.fst)
      ((List.insertionSort entryLE mem).map Prod.fst) :=
    (List.take_sublist _ _).map Prod.fst
  have hknodup : (((List.insertionSort entryLE mem).take
      (max 1 (mem.length / 4))).map Prod.fst).Nodup :=
    hsortnodup.sublist htakekeys
  have hkmem : ∀ k ∈ ((List.insertionSort entryLE mem).take
      (max 1 (mem.length / 4))).map Prod.fst, k ∈ mem.map Prod.fst := by
    intro k hk
    have h1 : k ∈ (List.insertionSort entryLE mem).map Prod.fst :=
      htakekeys.mem hk
    exact (hperm.map Prod.fst).mem_iff.mp h1
  have hmain := foldl_eraseA_length
    (((List.insertionSort entryLE mem).take
      (max 1 (mem.length / 4))).map Prod.fst) mem hknodup hkmem
  rw [List.length_map, List.length_take, hsortlen] at hmain
  have hmin : min (max 1 (mem.length / 4)) mem.length =
      max 1 (mem.length / 4) := by omega
  rw [hmin] at hmain
  exact hmain

lemma evictMemory_keys_sublist (mem : List (String × CacheEntry)) :
    List.Sublist ((evictMemory mem).map Prod.fst) (mem.map Prod.fst) := by
  rw [evictMemory]
  by_cases hne : mem = []
  · rw [if_pos hne]
  · rw [if_neg hne]
    rw [show ((List.insertionSort entryLE mem).take
        (max 1 (mem.length / 4))).foldl (fun m kv => eraseA kv.1 m) mem =
        (((List.insertionSort entryLE mem).take
          (max 1 (mem.length / 4))).map Prod.fst).foldl
            (fun acc k => eraseA k acc) mem from by rw [List.foldl_map]]
    exact foldl_eraseA_keys_sublist _ mem

/-! ### C10: the memory tier never exceeds its cap -/

lemma length_eraseA_le {V : Type} (m : List (String × V)) (k : String) :
    (eraseA k m).length ≤ m.length := by
  have h := (keys_eraseA_sublist m k).length_le
  simpa using h

lemma nodup_keys_eraseA {V : Type} (m : List (String × V)) (k : String)
    (hnodup : (m.map Prod.fst).Nodup) :
    ((eraseA k m).map Prod.fst).Nodup :=
  hnodup.sublist (keys_eraseA_sublist m k)

lemma cacheGetDisk_memory_inv (fs : String → Option FileStat)
    (maxAgeHours maxMemoryItems : Nat) (now : Int) (path key : String)
    (s : CacheState) (hlen : s.memory.length ≤ maxMemoryItems)
    (hnodup : (s.memory.map Prod.fst).Nodup) :
    (cacheGetDisk fs maxAgeHours maxMemoryItems now path key
        s).2.memory.length ≤ maxMemoryItems ∧
    ((cacheGetDisk fs maxAgeHours maxMemoryItems now path key
        s).2.memory.map Prod.fst).Nodup := by
  rw [cacheGetDisk]
  split
  next e hd =>
    split
    next hc =>
      show ((if s.memory.length < maxMemoryItems then
          insertA key { e with access_count := e.access_count + 1,
                               last_access := now } s.memory
        else s.memory).length ≤ maxMemoryItems) ∧
        ((if s.memory.length < maxMemoryItems then
          insertA key { e with access_count := e.access_count + 1,
                               last_access := now } s.memory
        else s.memory).map Prod.fst).Nodup
      split
      next hroom =>
        constructor
        · have := length_insertA_le s.memory key
            { e with access_count := e.access_count + 1, last_access := now }
          omega
        · exact nodup_keys_insertA s.memory key _ hnodup
      next hroom =>
        exact ⟨hlen, hnodup⟩
    next hc =>
      exact ⟨hlen, hnodup⟩
  next hd =>
    exact ⟨hlen, hnodup⟩

/-- C10: both cache operations preserve the memory-tier bound — `get`
promotes a lower-tier hit into memory only when strictly below the cap, and
`set` evicts the least recently accessed quarter (at least one entry) before
inserting into a full tier — so the in-memory cache never holds more than
`max_memory_items` entries (the tier's keys also stay duplicate-free). -/
theorem memory_cap_invariant (fhash : String → Option FileStat → String)
    (fs : String → Option FileStat) (maxAgeHours maxMemoryItems : Nat)
    (now : Int) (path pfx content : String) (s : CacheState)
    (hmax : 1 ≤ maxMemoryItems)
    (hlen : s.memory.length ≤ maxMemoryItems)
    (hnodup : (s.memory.map Prod.fst).Nodup) :
    ((cacheGet fhash fs maxAgeHours maxMemoryItems now path pfx
        s).2.memory.length ≤ maxMemoryItems ∧
      ((cacheGet fhash fs maxAgeHours maxMemoryItems now path pfx
        s).2.memory.map Prod.fst).Nodup) ∧
    ((cacheSet fhash fs maxMemoryItems now path content pfx
        s).2.memory.length ≤ maxMemoryItems ∧
      ((cacheSet fhash fs maxMemoryItems now path content pfx
        s).2.memory.map Prod.fst).Nodup) := by
  constructor
  · rw [cacheGet]
    split
    next e hm =>
      split
      next hcond =>
        refine cacheGetDisk_memory_inv fs maxAgeHours maxMemoryItems now
          path _ _ ?_ ?_
        · show (eraseA (mkCacheKey pfx (fhash path (fs path)))
            s.memory).length ≤ maxMemoryItems
          have := length_eraseA_le s.memory
            (mkCacheKey pfx (fhash path (fs path)))
          omega
        · exact nodup_keys_eraseA s.memory _ hnodup
      next hcond =>
        constructor
        · show (insertA (mkCacheKey pfx (fhash path (fs path)))
            { e with access_count := e.access_count + 1, last_access := now }
            s.memory).length ≤ maxMemoryItems
          have := length_insertA_of_lookup s.memory
            (mkCacheKey pfx (fhash path (fs path)))
            { e with access_count := e.access_count + 1, last_access := now }
            e hm
          omega
        · show ((insertA (mkCacheKey pfx (fhash path (fs path)))
            { e with access_count := e.access_count + 1, last_access := now }
            s.memory).map Prod.fst).Nodup
          exact nodup_keys_insertA s.memory _ _ hnodup
    next hm =>
      exact cacheGetDisk_memory_inv fs maxAgeHours maxMemoryItems now
        path _ s hlen hnodup
  · rw [cacheSet]
    split
    next hf =>
      exact ⟨hlen, hnodup⟩
    next st hf =>
      show ((insertA (mkCacheKey pfx (fhash path (some st)))
          ⟨content, fhash path (some st), st.size, st.mtime, now, 1, now⟩
          (if maxMemoryItems ≤ s.memory.length then evictMemory s.memory
           else s.memory)).length ≤ maxMemoryItems) ∧
        ((insertA (mkCacheKey pfx (fhash path (some st)))
          ⟨content, fhash path (some st), st.size, st.mtime, now, 1, now⟩
          (if maxMemoryItems ≤ s.memory.length then evictMemory s.memory
           else s.memory)).map Prod.fst).Nodup
      split
      next hfull =>
        have hlenEq : s.memory.length = maxMemoryItems := by omega
        have hne : s.memory ≠ [] := by
          intro hcon
          rw [hcon] at hlenEq
          simp at hlenEq
          omega
        have hev := evictMemory_length s.memory hne hnodup
        have hins := length_insertA_le (evictMemory s.memory)
          (mkCacheKey pfx (fhash path (some st)))
          ⟨content, fhash path (some st), st.size, st.mtime, now, 1, now⟩
        have hnodup2 : ((evictMemory s.memory).map Prod.fst).Nodup :=
          hnodup.sublist (evictMemory_keys_sublist s.memory)
        refine ⟨by omega, ?_⟩
        exact nodup_keys_insertA (evictMemory s.memory) _ _ hnodup2
      next hfull =>
        have hins := length_insertA_le s.memory
          (mkCacheKey pfx (fhash path (some st)))
          ⟨content, fhash path (some st), st.size, st.mtime, now, 1, now⟩
        exact ⟨by omega, nodup_keys_insertA s.memory _ _ hnodup⟩

/-- Witness for C10 at a concrete empty cache with cap 1. -/
theorem memory_cap_invariant_witness :
    1 ≤ 1 ∧ (CacheState.mk [] []).memory.length ≤ 1 ∧
    ((CacheState.mk [] []).memory.map Prod.fst).Nodup ∧
    ((cacheSet (fun _ _ => "h") (fun _ => some ⟨1, 2⟩) 1 5 "f" "c" ""
        (CacheState.mk [] [])).2.memory.length ≤ 1 ∧
      ((cacheSet (fun _ _ => "h") (fun _ => some ⟨1, 2⟩) 1 5 "f" "c" ""
        (CacheState.mk [] [])).2.memory.map Prod.fst).Nodup) :=
  ⟨Nat.le_refl 1, by simp, by simp,
    (memory_cap_invariant (fun _ _ => "h") (fun _ => some ⟨1, 2⟩) 24 1 5
      "f" "" "c" (CacheState.mk [] []) (Nat.le_refl 1) (by simp) (by simp)).2⟩

/-! ### C6: round trip and stat-change invalidation -/

lemma cacheGetDisk_miss (fs : String → Option FileStat)
    (maxAgeHours maxMemoryItems : Nat) (now : Int) (path key : String)
    (s : CacheState)
    (h : ∀ e, lookupA key s.disk = some e →
      isFileChangedB fs path e = true) :
    (cacheGetDisk fs maxAgeHours maxMemoryItems now path key s).1 = none := by
  rw [cacheGetDisk]
  split
  next e2 hd2 =>
    have hchg := h e2 hd2
    split
    next hc =>
      rw [hchg] at hc
      simp at hc
    next hc => rfl
  next hd2 => rfl

/-- C6: a successful `set` followed by `get` on the unchanged file within
the expiry window returns exactly the stored content, from any cache state;
and from a fresh cache, if the file's size or mtime changed between the
`set` and the `get`, the `get` misses instead of serving the stale
content. -/
theorem cache_round_trip_and_invalidation
    (fhash : String → Option FileStat → String)
    (fs fs2 : String → Option FileStat) (maxAgeHours maxMemoryItems : Nat)
    (path pfx content : String) (st st2 : FileStat) (t1 t2 : Int)
    (hfs : fs path = some st) (hfs2 : fs2 path = some st2)
    (hage : t2 - t1 ≤ (maxAgeHours : Int) * 3600)
    (hdiff : st2.size ≠ st.size ∨ st2.mtime ≠ st.mtime) :
    (∀ s : CacheState,
      (cacheSet fhash fs maxMemoryItems t1 path content pfx s).1 = true ∧
      (cacheGet fhash fs maxAgeHours maxMemoryItems t2 path pfx
        (cacheSet fhash fs maxMemoryItems t1 path content pfx s).2).1 =
        some content) ∧
    (cacheGet fhash fs2 maxAgeHours maxMemoryItems t2 path pfx
      (cacheSet fhash fs maxMemoryItems t1 path content pfx
        (CacheState.mk [] [])).2).1 = none := by
  have hexp : isExpiredB
      ⟨content, fhash path (some st), st.size, st.mtime, t1, 1, t1⟩
      maxAgeHours t2 = false := by
    show decide ((maxAgeHours : Int) * 3600 < t2 - t1) = false
    exact decide_eq_false (by omega)
  have hchg : isFileChangedB fs path
      ⟨content, fhash path (some st), st.size, st.mtime, t1, 1, t1⟩
        = false := by
    simp only [isFileChangedB, hfs]
    simp
  constructor
  · intro s
    constructor
    · simp only [cacheSet, hfs]
    · simp only [cacheSet, cacheGet, hfs]
      split
      next e hm =>
        rw [lookupA_insertA_self] at hm
        have he := Option.some.inj hm
        subst he
        split
        next hcond =>
          rw [hexp, hchg] at hcond
          simp at hcond
        next hcond => rfl
      next hm =>
        rw [lookupA_insertA_self] at hm
        cases hm
  · have hchg2 : isFileChangedB fs2 path
        ⟨content, fhash path (some st), st.size, st.mtime, t1, 1, t1⟩
          = true := by
      simp only [isFileChangedB, hfs2]
      rcases hdiff with h | h
      · simp [h]
      · simp [h]
    have hmem1 : (if maxMemoryItems ≤
        (CacheState.mk [] []).memory.length then
          evictMemory (CacheState.mk [] []).memory
        else (CacheState.mk [] []).memory) = [] := by
      split
      · rw [evictMemory]
        simp
      · rfl
    simp only [cacheSet, cacheGet, hfs]
    rw [hmem1]
    by_cases hk : mkCacheKey pfx (fhash path (fs2 path)) =
        mkCacheKey pfx (fhash path (some st))
    · have hl1 : lookupA (mkCacheKey pfx (fhash path (fs2 path)))
          (insertA (mkCacheKey pfx (fhash path (some st)))
            (⟨content, fhash path (some st), st.size, st.mtime, t1, 1, t1⟩ :
              CacheEntry) []) = some
            (⟨content, fhash path (some st), st.size, st.mtime, t1, 1, t1⟩ :
              CacheEntry) := by
        rw [hk]
        exact lookupA_insertA_self [] (mkCacheKey pfx (fhash path (some st)))
          (⟨content, fhash path (some st), st.size, st.mtime, t1, 1, t1⟩ :
            CacheEntry)
      split
      next e hm =>
        rw [hl1] at hm
        have he := Option.some.inj hm
        subst he
        split
        next hcond =>
          apply cacheGetDisk_miss
          intro e2 hd2
          have hd3 : lookupA (mkCacheKey pfx (fhash path (fs2 path)))
              (insertA (mkCacheKey pfx (fhash path (some st)))
                (⟨content, fhash path (some st), st.size, st.mtime, t1, 1,
                  t1⟩ : CacheEntry) []) = some e2 := hd2
          rw [hl1] at hd3
          have he2 := Option.some.inj hd3
          subst he2
          exact hchg2
        next hcond =>
          rw [hchg2] at hcond
          simp at hcond
      next hm =>
        rw [hl1] at hm
        cases hm
    · have hl2 : lookupA (mkCacheKey pfx (fhash path (fs2 path)))
          (insertA (mkCacheKey pfx (fhash path (some st)))
            (⟨content, fhash path (some st), st.size, st.mtime, t1, 1, t1⟩ :
              CacheEntry) []) = none := by
        simp only [insertA, lookupA]
        rw [if_neg (fun h => hk h.symm)]
      split
      next e hm =>
        rw [hl2] at hm
        cases hm
      next hm =>
        apply cacheGetDisk_miss
        intro e2 hd2
        have hd3 : lookupA (mkCacheKey pfx (fhash path (fs2 path)))
            (insertA (mkCacheKey pfx (fhash path (some st)))
              (⟨content, fhash path (some st), st.size, st.mtime, t1, 1,
                t1⟩ : CacheEntry) []) = some e2 := hd2
        rw [hl2] at hd3
        cases hd3

/-- Witness for C6 at a concrete configuration: constant hash, file stat
`(10, 100)` changing to `(11, 100)`, 24h window, times 1000 and 2000. -/
theorem cache_round_trip_witness :
    (fun (_ : String) => some (FileStat.mk 10 100)) "f" =
      some (FileStat.mk 10 100) ∧
    (fun (_ : String) => some (FileStat.mk 11 100)) "f" =
      some (FileStat.mk 11 100) ∧
    ((2000 : Int) - 1000 ≤ ((24 : Nat) : Int) * 3600) ∧
    ((FileStat.mk 11 100).size ≠ (FileStat.mk 10 100).size ∨
      (FileStat.mk 11 100).mtime ≠ (FileStat.mk 10 100).mtime) ∧
    ((∀ s : CacheState,
      (cacheSet (fun _ _ => "k") (fun _ => some (FileStat.mk 10 100)) 100
        1000 "f" "hello" "p" s).1 = true ∧
      (cacheGet (fun _ _ => "k") (fun _ => some (FileStat.mk 10 100)) 24 100
        2000 "f" "p"
        (cacheSet (fun _ _ => "k") (fun _ => some (FileStat.mk 10 100)) 100
          1000 "f" "hello" "p" s).2).1 = some "hello") ∧
    (cacheGet (fun _ _ => "k") (fun _ => some (FileStat.mk 11 100)) 24 100
      2000 "f" "p"
      (cacheSet (fun _ _ => "k") (fun _ => some (FileStat.mk 10 100)) 100
        1000 "f" "hello" "p" (CacheState.mk [] [])).2).1 = none) :=
  ⟨rfl, rfl, by norm_num, Or.inl (by norm_num),
    cache_round_trip_and_invalidation (fun _ _ => "k")
      (fun _ => some (FileStat.mk 10 100)) (fun _ => some (FileStat.mk 11 100))
      24 100 "f" "p" "hello" (FileStat.mk 10 100) (FileStat.mk 11 100)
      1000 2000 rfl rfl (by norm_num) (Or.inl (by norm_num))⟩
